import Mathlib

/-
Verification of the multiparty (threshold) protocol layer of an RLWE-based
homomorphic encryption library (src/pke/lib/schemebase/base-multiparty.cpp).

The embedding models the ring element type, the key containers and each
operation of MultipartyBase.  Randomness drawn from the samplers (dug, dgg,
tug) is passed in as explicit coefficient lists: the C++ code constructs
Element(dug, params, EVALUATION) etc., which here becomes an element built
from the given coefficient list over the context parameters, in evaluation
format.  External ring arithmetic (the lattice layer, not part of the file
under verification) is modelled from the spec data model: addition,
subtraction and multiplication are pointwise modulo q (multiplication of
evaluation-format elements is pointwise), and they fail when the two
operands carry different ring parameters, which models the math_error the
external lattice layer throws on incompatible parameters.
-/

namespace Lbcrypto

/-- Representation format of a ring element (coefficient or evaluation/NTT). -/
inductive Format where
  | EVALUATION : Format
  | COEFFICIENT : Format
deriving DecidableEq, Repr

/-- Secret-key distribution mode: RLWE = Gaussian, OPTIMIZED = ternary,
SPARSE = ternary with Hamming weight 64. -/
inductive Mode where
  | RLWE : Mode
  | OPTIMIZED : Mode
  | SPARSE : Mode
deriving DecidableEq, Repr

/-- Ring parameters: ring dimension N, cyclotomic order M, modulus q. -/
structure RingParams where
  N : Nat
  M : Nat
  q : Int
deriving DecidableEq, Repr

/-- Modelled from the spec: a RingElement of Z_q[x]/(x^N+1) held in either
coefficient or evaluation representation.  Coefficients are integers mod q;
the representation content is a plain list of residues. -/
structure Element where
  params : RingParams
  fmt : Format
  coeffs : List Int
deriving DecidableEq, Repr

/-- The zero element, as built by Element(params, format, true) in the source. -/
def elemZero (p : RingParams) (f : Format) : Element :=
  ⟨p, f, List.replicate p.N 0⟩

/-- Modelled from the spec: pointwise ring operation modulo q.  The external
lattice layer throws a math_error when the operands have incompatible ring
parameters; that failure is the none case.  The result keeps the left
operand's representation format, as the external element type does. -/
def elemBinop (op : Int → Int → Int) (x y : Element) : Option Element :=
  if x.params = y.params then
    some ⟨x.params, x.fmt, List.zipWith (fun u v => op u v % x.params.q) x.coeffs y.coeffs⟩
  else
    none

/-- Modelled from the spec: ring addition (external). -/
def elemAdd (x y : Element) : Option Element :=
  elemBinop (fun u v => u + v) x y

/-- Modelled from the spec: ring subtraction (external). -/
def elemSub (x y : Element) : Option Element :=
  elemBinop (fun u v => u - v) x y

/-- Modelled from the spec: ring multiplication (external); pointwise for
evaluation-format operands. -/
def elemMul (x y : Element) : Option Element :=
  elemBinop (fun u v => u * v) x y

/-- Modelled from the spec: multiplication by the small integer noise scale ns. -/
def scalarMul (c : Int) (x : Element) : Element :=
  ⟨x.params, x.fmt, x.coeffs.map (fun u => (c * u) % x.params.q)⟩

/-- Modelled from the spec: SwitchFormat() toggles between the coefficient
and evaluation representations (the NTT itself is external; the embedding
tracks the format tag over the abstract content). -/
def switchFormat (x : Element) : Element :=
  ⟨x.params, (match x.fmt with
              | Format.EVALUATION => Format.COEFFICIENT
              | Format.COEFFICIENT => Format.EVALUATION), x.coeffs⟩

/-- Modelled from the spec: SetFormat(f) switches only when the element is
not already in format f. -/
def setFormat (f : Format) (x : Element) : Element :=
  if x.fmt = f then x else switchFormat x

/-- Crypto parameters relevant to the multiparty layer: element parameters,
noise scale ns, secret distribution mode, batch size B. -/
structure CryptoParams where
  elementParams : RingParams
  ns : Int
  mode : Mode
  batchSize : Nat
deriving DecidableEq, Repr

/-- A public key is the ordered pair (b, a) of ring elements
(public elements at index 0 and 1). -/
abbrev PubKeyE := Element × Element

/-- A key pair as returned by the key generation operations. -/
structure KeyPairE where
  secretKey : Element
  publicKey : PubKeyE
deriving DecidableEq, Repr

/-- A relinearization-style evaluation key: parallel A and B vectors. -/
structure EvalKeyE where
  avec : List Element
  bvec : List Element
deriving DecidableEq, Repr

/-- Abstract error kinds for the failure paths of the multiparty layer:
DimensionOverflow is the math_error thrown by the index-count check;
MathError is the error thrown by the external ModInverse on a non-invertible
index; OutOfBounds models an unguarded out-of-range vector access (undefined
behavior in the source); ParamMismatch is the math_error thrown by the
external ring arithmetic on incompatible parameters; MissingKey models the
unguarded dereference of a failed map lookup (undefined behavior). -/
inductive Err where
  | DimensionOverflow : Err
  | MathError : Err
  | OutOfBounds : Err
  | ParamMismatch : Err
  | MissingKey : Err
deriving DecidableEq, Repr

/-- Lift an optional value into the error monad with the given error kind. -/
def liftO {α : Type} (o : Option α) (e : Err) : Except Err α :=
  match o with
  | some a => Except.ok a
  | none => Except.error e

/-- std::map::find modelled on an association list. -/
def mapFind {α : Type} (k : Nat) : List (Nat × α) → Option α
  | [] => none
  | (k2, v) :: rest => if k = k2 then some v else mapFind k rest

/-- std::map operator[] assignment modelled on an association list:
insert-or-overwrite. -/
def mInsert {α : Type} (k : Nat) (v : α) (m : List (Nat × α)) : List (Nat × α) :=
  (k, v) :: m.filter (fun p => p.1 != k)

/-- The share-summation loop of MultipartyKeyGen (vector of shares):
starting from the zero element, add each party's private element in turn.
The external addition throws on a parameter mismatch. -/
def sumShares (acc : Element) : List Element → Except Err Element
  | [] => Except.ok acc
  | si :: rest =>
    match elemAdd acc si with
    | some acc2 => sumShares acc2 rest
    | none => Except.error Err.ParamMismatch

/-- MultipartyBase::MultipartyKeyGen over a vector of private-key shares
(aggregate mode).  aC is the uniform (dug) sample for a, eC the Gaussian
(dgg) sample for e, both materialised over the context's element parameters
in evaluation format, exactly as the source constructs them.  The secret is
the running sum of the shares starting from zero; the public key is
(ns*e - a*s, a). -/
def MultipartyKeyGen (cp : CryptoParams) (privateKeyVec : List Element)
    (aC eC : List Int) : Except Err KeyPairE :=
  let ep := cp.elementParams
  do
    let s ← sumShares (elemZero ep Format.EVALUATION) privateKeyVec
    let a : Element := ⟨ep, Format.EVALUATION, aC⟩
    let e : Element := ⟨ep, Format.EVALUATION, eC⟩
    let as0 ← liftO (elemMul a s) Err.ParamMismatch
    let b ← liftO (elemSub (scalarMul cp.ns e) as0) Err.ParamMismatch
    Except.ok { secretKey := s, publicKey := (b, a) }

/-- The tail of the extend-mode key generation, shared by all three secret
distribution modes: a is taken from the predecessor public key unchanged,
e is the Gaussian (dgg) sample, and b is ns*e - a*s when fresh, and
ns*e - a*s + b_prev otherwise. -/
def keyGenPKBody (cp : CryptoParams) (publicKey : PubKeyE) (fresh : Bool)
    (s : Element) (eC : List Int) : Except Err KeyPairE :=
  let a : Element := publicKey.2
  let e : Element := ⟨cp.elementParams, Format.EVALUATION, eC⟩
  do
    let as0 ← liftO (elemMul a s) Err.ParamMismatch
    let t ← liftO (elemSub (scalarMul cp.ns e) as0) Err.ParamMismatch
    let b ← if fresh then Except.ok t
            else liftO (elemAdd t publicKey.1) Err.ParamMismatch
    Except.ok { secretKey := s, publicKey := (b, a) }

/-- MultipartyBase::MultipartyKeyGen over a predecessor public key (extend
mode).  The local secret is drawn from the sampler selected by the mode
(RLWE: dgg, OPTIMIZED: tug, SPARSE: tug with Hamming weight 64); the three
potential samples are the explicit inputs sDgg, sTug, sSparse64. -/
def MultipartyKeyGenPK (cp : CryptoParams) (publicKey : PubKeyE) (fresh : Bool)
    (sDgg sTug sSparse64 eC : List Int) : Except Err KeyPairE :=
  keyGenPKBody cp publicKey fresh
    (match cp.mode with
     | Mode.RLWE => ⟨cp.elementParams, Format.EVALUATION, sDgg⟩
     | Mode.OPTIMIZED => ⟨cp.elementParams, Format.EVALUATION, sTug⟩
     | Mode.SPARSE => ⟨cp.elementParams, Format.EVALUATION, sSparse64⟩) eC

/-- NativeInteger(k).ModInverse(m): the inverse of k modulo m, throwing
(none) when no inverse exists.  The search form is executable and agrees
with the external implementation on every invertible input. -/
def modInverse (k m : Nat) : Option Nat :=
  (List.range m).find? (fun x => (k * x) % m == 1)

/-- The per-index body of MultiEvalAutomorphismKeyGen, iterated sequentially
(the source runs it as an OpenMP parallel-for whose iterations own disjoint
output slots, so sequential order gives the same map).  For each listed
index k: compute k^-1 mod 2N (external ModInverse, throws when not
invertible), apply the automorphism transform to the secret (external,
abstracted as autoT), look the index up in the prior key map (unguarded
find dereference), and key-switch (delegated through MultiKeySwitchGen to
the external KeySwitchGen, abstracted as ksg). -/
def autoKeyGenLoop (autoT : Element → Nat → Element)
    (ksg : Element → Element → EvalKeyE → EvalKeyE) (s : Element)
    (evalKeyMap : List (Nat × EvalKeyE)) :
    List Nat → List (Nat × EvalKeyE) → Except Err (List (Nat × EvalKeyE))
  | [], acc => Except.ok acc
  | k :: rest, acc => do
    let kinv ← liftO (modInverse k (2 * s.params.N)) Err.MathError
    let sPermuted := autoT s kinv
    let ek0 ← liftO (mapFind k evalKeyMap) Err.MissingKey
    autoKeyGenLoop autoT ksg s evalKeyMap rest (mInsert k (ksg sPermuted s ek0) acc)

/-- MultipartyBase::MultiEvalAutomorphismKeyGen: throws DimensionOverflow
when the index list is longer than N - 1 (N the ring dimension of the
secret), otherwise builds one evaluation key per listed index. -/
def MultiEvalAutomorphismKeyGen (autoT : Element → Nat → Element)
    (ksg : Element → Element → EvalKeyE → EvalKeyE) (privateKey : Element)
    (evalKeyMap : List (Nat × EvalKeyE)) (indexList : List Nat) :
    Except Err (List (Nat × EvalKeyE)) :=
  if indexList.length > privateKey.params.N - 1 then
    Except.error Err.DimensionOverflow
  else
    autoKeyGenLoop autoT ksg privateKey evalKeyMap indexList []

/-- The index-generation loop of MultiEvalSumKeyGen: n indices starting at
g and squaring modulo M after each step. -/
def genSumIndices : Nat → Nat → Nat → List Nat
  | 0, _, _ => []
  | n + 1, g, m => g :: genSumIndices n ((g * g) % m) m

/-- The automorphism indices generated by MultiEvalSumKeyGen: ceil(log2 B)
indices starting at g = 5, squaring modulo M.  ceil(log2 B) is Nat.clog 2 B
(the source computes it with ceil(log2(batchSize)) in double precision,
exact for the power-of-two batch sizes the scheme uses). -/
def sumKeyIndices (batchSize m : Nat) : List Nat :=
  genSumIndices (Nat.clog 2 batchSize) 5 m

/-- MultipartyBase::MultiEvalSumKeyGen: generate the summation-key
automorphism indices and delegate to MultiEvalAutomorphismKeyGen. -/
def MultiEvalSumKeyGen (autoT : Element → Nat → Element)
    (ksg : Element → Element → EvalKeyE → EvalKeyE) (cp : CryptoParams)
    (privateKey : Element) (evalKeyMap : List (Nat × EvalKeyE)) :
    Except Err (List (Nat × EvalKeyE)) :=
  MultiEvalAutomorphismKeyGen autoT ksg privateKey evalKeyMap
    (sumKeyIndices cp.batchSize cp.elementParams.M)

/-- MultipartyBase::MultipartyDecryptLead: b = cv[0] + s*cv[1] + ns*e with e
a Gaussian sample of standard deviation MP_SD (the smudging deviation; the
sample is the explicit input eC), then SwitchFormat, returning a ciphertext
carrying the single element b.  The cv[0] and cv[1] accesses are unguarded. -/
def MultipartyDecryptLead (cp : CryptoParams) (cv : List Element) (s : Element)
    (eC : List Int) : Except Err (List Element) :=
  let ep := cp.elementParams
  let e : Element := ⟨ep, Format.EVALUATION, eC⟩
  do
    let c0 ← liftO (cv.get? 0) Err.OutOfBounds
    let c1 ← liftO (cv.get? 1) Err.OutOfBounds
    let sc1 ← liftO (elemMul s c1) Err.ParamMismatch
    let t ← liftO (elemAdd c0 sc1) Err.ParamMismatch
    let b ← liftO (elemAdd t (scalarMul cp.ns e)) Err.ParamMismatch
    Except.ok [switchFormat b]

/-- MultipartyBase::MultipartyDecryptMain: b = s*cv[1] + ns*e with e a
Gaussian sample of standard deviation MP_SD (explicit input eC); no format
switch is performed, so b stays in the format the product leaves it in. -/
def MultipartyDecryptMain (cp : CryptoParams) (cv : List Element) (s : Element)
    (eC : List Int) : Except Err (List Element) :=
  let ep := cp.elementParams
  let e : Element := ⟨ep, Format.EVALUATION, eC⟩
  do
    let c1 ← liftO (cv.get? 1) Err.OutOfBounds
    let sc1 ← liftO (elemMul s c1) Err.ParamMismatch
    let b ← liftO (elemAdd sc1 (scalarMul cp.ns e)) Err.ParamMismatch
    Except.ok [b]

/-- The accumulation loop of MultipartyDecryptFusion: add the first element
of every remaining partial ciphertext onto the accumulator.  Each cvi[0]
access is unguarded and the external addition throws on mismatched
parameters. -/
def fusionLoop (acc : Element) : List (List Element) → Except Err Element
  | [] => Except.ok acc
  | cv :: rest => do
    let c ← liftO (cv.get? 0) Err.OutOfBounds
    let acc2 ← liftO (elemAdd acc c) Err.ParamMismatch
    fusionLoop acc2 rest

/-- MultipartyBase::MultipartyDecryptFusion: sum the lead components of all
partial decryptions (the ciphertextVec[0] and cv0[0] accesses are
unguarded: zero partials is undefined behavior, modelled as OutOfBounds),
set the result to coefficient format, and return the native polynomial
together with its length.  No lead-presence, format or count validation is
performed. -/
def MultipartyDecryptFusion (ciphertextVec : List (List Element)) :
    Except Err (Element × Nat) := do
  let cv0 ← liftO (ciphertextVec.get? 0) Err.OutOfBounds
  let b0 ← liftO (cv0.get? 0) Err.OutOfBounds
  let b ← fusionLoop b0 (ciphertextVec.drop 1)
  let b2 := setFormat Format.COEFFICIENT b
  Except.ok (b2, b2.coeffs.length)

/-- MultipartyBase::MultiAddPubKeys: (b1 + b2, a) with a taken from the
first key.  The external addition throws on mismatched parameters. -/
def MultiAddPubKeys (publicKey1 publicKey2 : PubKeyE) : Except Err PubKeyE := do
  let b ← liftO (elemAdd publicKey1.1 publicKey2.1) Err.ParamMismatch
  Except.ok (b, publicKey1.2)

/-- The b-vector summation loop of MultiAddEvalKeys: for each position i up
to the length of the first key's A-vector, add b1[i] and b2[i].  The
accesses are unguarded (OutOfBounds when a b-vector is shorter than the
A-vector). -/
def addBLoop (b1 b2 : List Element) : List Nat → Except Err (List Element)
  | [] => Except.ok []
  | i :: rest => do
    let x ← liftO (b1.get? i) Err.OutOfBounds
    let y ← liftO (b2.get? i) Err.OutOfBounds
    let z ← liftO (elemAdd x y) Err.ParamMismatch
    let tl ← addBLoop b1 b2 rest
    Except.ok (z :: tl)

/-- MultipartyBase::MultiAddEvalKeys: reuse the first key's A-vector, sum
the B-vectors componentwise over the positions of that A-vector. -/
def MultiAddEvalKeys (evalKey1 evalKey2 : EvalKeyE) : Except Err EvalKeyE := do
  let b ← addBLoop evalKey1.bvec evalKey2.bvec (List.range evalKey1.avec.length)
  Except.ok ⟨evalKey1.avec, b⟩

/-- MultipartyBase::MultiAddEvalAutomorphismKeys: iterate over the first
map; for each index found in the second map as well, store the sum of the
two evaluation keys; indices missing from the second map are skipped. -/
def MultiAddEvalAutomorphismKeys :
    List (Nat × EvalKeyE) → List (Nat × EvalKeyE) → Except Err (List (Nat × EvalKeyE))
  | [], _ => Except.ok []
  | (k, v1) :: rest, m2 =>
    match mapFind k m2 with
    | none => MultiAddEvalAutomorphismKeys rest m2
    | some v2 => do
      let ek ← MultiAddEvalKeys v1 v2
      let tl ← MultiAddEvalAutomorphismKeys rest m2
      Except.ok ((k, ek) :: tl)

/-- MultipartyBase::MultiAddEvalSumKeys: the same loop body as
MultiAddEvalAutomorphismKeys (the source duplicates the code verbatim). -/
def MultiAddEvalSumKeys (evalKeyMap1 evalKeyMap2 : List (Nat × EvalKeyE)) :
    Except Err (List (Nat × EvalKeyE)) :=
  MultiAddEvalAutomorphismKeys evalKeyMap1 evalKeyMap2

/-! ### Arithmetic and list helper lemmas -/

theorem emod_add_left (x y q : Int) : (x % q + y) % q = (x + y) % q := by
  rw [Int.add_emod, Int.emod_emod_of_dvd x (dvd_refl q), ← Int.add_emod]

theorem emod_add_right (x y q : Int) : (x + y % q) % q = (x + y) % q := by
  rw [Int.add_emod, Int.emod_emod_of_dvd y (dvd_refl q), ← Int.add_emod]

theorem emod_sub_both (x y q : Int) : (x % q - y % q) % q = (x - y) % q :=
  (Int.sub_emod x y q).symm

theorem emod_mul_right (x y q : Int) : (x * (y % q)) % q = (x * y) % q := by
  rw [Int.mul_emod, Int.emod_emod_of_dvd y (dvd_refl q), ← Int.mul_emod]

theorem emod_add_both (a b q : Int) : (a % q + b % q) % q = (a + b) % q := by
  rw [emod_add_left, emod_add_right]

theorem emod_triple_add (a b c q : Int) :
    ((a + b % q) % q + c % q) % q = (a + b + c) % q := by
  rw [emod_add_left, emod_add_right]
  rw [show a + b % q + c = b % q + (a + c) by ring]
  rw [emod_add_left]
  rw [show b + (a + c) = a + b + c by ring]

theorem getD_zipWith (f : Int → Int → Int) (l1 l2 : List Int) (j : Nat)
    (h1 : j < l1.length) (h2 : j < l2.length) :
    (List.zipWith f l1 l2).getD j 0 = f (l1.getD j 0) (l2.getD j 0) := by
  induction l1 generalizing l2 j with
  | nil => simp at h1
  | cons a t ih =>
    cases l2 with
    | nil => simp at h2
    | cons b t2 =>
      cases j with
      | zero => simp [List.zipWith]
      | succ n =>
        simp only [List.zipWith, List.getD_cons_succ]
        exact ih t2 n (by simpa using h1) (by simpa using h2)

theorem getD_map (f : Int → Int) (l : List Int) (j : Nat) (h : j < l.length) :
    (l.map f).getD j 0 = f (l.getD j 0) := by
  induction l generalizing j with
  | nil => simp at h
  | cons a t ih =>
    cases j with
    | zero => simp
    | succ n =>
      simp only [List.map, List.getD_cons_succ]
      exact ih n (by simpa using h)

/-! ### Element operation lemmas -/

theorem elemAdd_of_params_eq (x y : Element) (h : x.params = y.params) :
    elemAdd x y =
      some ⟨x.params, x.fmt,
            List.zipWith (fun u v => (u + v) % x.params.q) x.coeffs y.coeffs⟩ := by
  simp [elemAdd, elemBinop, h]

theorem elemAdd_none (x y : Element) (h : x.params ≠ y.params) :
    elemAdd x y = none := by
  simp [elemAdd, elemBinop, h]

theorem elemAdd_params (x y z : Element) (h : elemAdd x y = some z) :
    y.params = x.params ∧ z.params = x.params ∧ z.fmt = x.fmt := by
  by_cases hp : x.params = y.params
  · rw [elemAdd_of_params_eq x y hp] at h
    cases h
    exact ⟨hp.symm, rfl, rfl⟩
  · rw [elemAdd_none x y hp] at h
    cases h

theorem elemAdd_comm (x y : Element) (hf : x.fmt = y.fmt) :
    elemAdd x y = elemAdd y x := by
  by_cases h : x.params = y.params
  · rw [elemAdd_of_params_eq x y h, elemAdd_of_params_eq y x h.symm]
    simp only [Option.some.injEq, Element.mk.injEq]
    refine ⟨h, hf, ?_⟩
    rw [h]
    exact List.zipWith_comm_of_comm _ (fun a b => by rw [Int.add_comm]) _ _
  · rw [elemAdd_none x y h, elemAdd_none y x (fun hh => h hh.symm)]

theorem elemBinop_of_params_eq (op : Int → Int → Int) (x y : Element)
    (h : x.params = y.params) :
    elemBinop op x y =
      some ⟨x.params, x.fmt,
            List.zipWith (fun u v => op u v % x.params.q) x.coeffs y.coeffs⟩ := by
  simp [elemBinop, h]

theorem elemMul_of_params_eq (x y : Element) (h : x.params = y.params) :
    elemMul x y =
      some ⟨x.params, x.fmt,
            List.zipWith (fun u v => (u * v) % x.params.q) x.coeffs y.coeffs⟩ :=
  elemBinop_of_params_eq _ x y h

theorem elemSub_of_params_eq (x y : Element) (h : x.params = y.params) :
    elemSub x y =
      some ⟨x.params, x.fmt,
            List.zipWith (fun u v => (u - v) % x.params.q) x.coeffs y.coeffs⟩ :=
  elemBinop_of_params_eq _ x y h

/-! ### Lemmas about the share-summation loop -/

theorem sumShares_ok_params (l : List Element) (acc s : Element)
    (h : sumShares acc l = Except.ok s) : ∀ si ∈ l, si.params = acc.params := by
  induction l generalizing acc with
  | nil => intro si hm; simp at hm
  | cons a t ih =>
    intro si hm
    unfold sumShares at h
    cases ha : elemAdd acc a with
    | none => rw [ha] at h; cases h
    | some acc2 =>
      rw [ha] at h
      obtain ⟨hpa, hp2, _⟩ := elemAdd_params acc a acc2 ha
      rcases List.mem_cons.mp hm with hh | hh
      · rw [hh]; exact hpa
      · exact (ih acc2 h si hh).trans hp2

theorem sumShares_ok_or_mismatch (l : List Element) (acc : Element) :
    (∃ s, sumShares acc l = Except.ok s) ∨
      sumShares acc l = Except.error Err.ParamMismatch := by
  induction l generalizing acc with
  | nil => exact Or.inl ⟨acc, rfl⟩
  | cons a t ih =>
    unfold sumShares
    cases ha : elemAdd acc a with
    | none => exact Or.inr rfl
    | some acc2 => exact ih acc2

/-- Characterization of the share-summation loop on a nonempty list of
parameter-compatible shares: it succeeds and computes the pointwise sum
modulo q. -/
theorem sumShares_char (l : List Element) (acc : Element)
    (hp : ∀ si ∈ l, si.params = acc.params)
    (hl : ∀ si ∈ l, si.coeffs.length = acc.coeffs.length)
    (hne : l ≠ []) :
    ∃ s, sumShares acc l = Except.ok s ∧ s.params = acc.params ∧
      s.fmt = acc.fmt ∧ s.coeffs.length = acc.coeffs.length ∧
      ∀ j, j < acc.coeffs.length →
        s.coeffs.getD j 0 =
          (acc.coeffs.getD j 0 + (l.map (fun si => si.coeffs.getD j 0)).sum)
            % acc.params.q := by
  induction l generalizing acc with
  | nil => exact absurd rfl hne
  | cons a t ih =>
    have hpa : a.params = acc.params := hp a (List.mem_cons_self a t)
    have hla : a.coeffs.length = acc.coeffs.length := hl a (List.mem_cons_self a t)
    have hadd := elemAdd_of_params_eq acc a hpa.symm
    set acc2 : Element :=
      ⟨acc.params, acc.fmt,
       List.zipWith (fun u v => (u + v) % acc.params.q) acc.coeffs a.coeffs⟩ with hacc2
    have hlen2 : acc2.coeffs.length = acc.coeffs.length := by
      simp [hacc2, hla]
    have hg2 : ∀ j, j < acc.coeffs.length →
        acc2.coeffs.getD j 0 =
          (acc.coeffs.getD j 0 + a.coeffs.getD j 0) % acc.params.q := by
      intro j hj
      simpa [hacc2] using
        getD_zipWith (fun u v => (u + v) % acc.params.q) acc.coeffs a.coeffs j hj
          (by rw [hla]; exact hj)
    have hstep : sumShares acc (a :: t) = sumShares acc2 t := by
      conv_lhs => rw [sumShares]
      rw [hadd]
    cases t with
    | nil =>
      refine ⟨acc2, ?_, rfl, rfl, hlen2, ?_⟩
      · rw [hstep]; rfl
      · intro j hj
        simpa using hg2 j hj
    | cons b t2 =>
      have hp2 : ∀ si ∈ b :: t2, si.params = acc2.params := by
        intro si hm
        have : si.params = acc.params := hp si (List.mem_cons_of_mem a hm)
        simpa [hacc2] using this
      have hl2 : ∀ si ∈ b :: t2, si.coeffs.length = acc2.coeffs.length := by
        intro si hm
        have : si.coeffs.length = acc.coeffs.length := hl si (List.mem_cons_of_mem a hm)
        rw [hlen2]; exact this
      obtain ⟨s, hs, hps, hfs, hls, hgs⟩ := ih acc2 hp2 hl2 (by simp)
      refine ⟨s, by rw [hstep]; exact hs, by simpa [hacc2] using hps,
        by simpa [hacc2] using hfs, by rw [hls]; exact hlen2, ?_⟩
      intro j hj
      have hq2 : acc2.params.q = acc.params.q := by simp [hacc2]
      have := hgs j (by rw [hlen2]; exact hj)
      rw [this, hg2 j hj, hq2]
      rw [emod_add_left]
      simp [add_assoc]

theorem getD_replicate_zero (n j : Nat) : (List.replicate n (0 : Int)).getD j 0 = 0 := by
  induction n generalizing j with
  | zero => simp
  | succ m ih =>
    cases j with
    | zero => simp [List.replicate]
    | succ i => simp only [List.replicate, List.getD_cons_succ]; exact ih i

/-! ### Claims -/

/-- Claim C1: for every non-empty sequence of private-key shares over
identical parameters, MultipartyKeyGen over a share vector returns a key
pair whose secret element is the sum of the shares' private elements
(pointwise modulo q), and whose public key is (ns*e - a*(sum of shares), a),
with a the uniform (dug) sample and e the Gaussian (dgg) sample, both in
evaluation format. -/
theorem claim_C1 (cp : CryptoParams) (shares : List Element) (aC eC : List Int)
    (hne : shares ≠ [])
    (hp : ∀ sh ∈ shares, sh.params = cp.elementParams)
    (hl : ∀ sh ∈ shares, sh.coeffs.length = cp.elementParams.N)
    (ha : aC.length = cp.elementParams.N)
    (he : eC.length = cp.elementParams.N) :
    ∃ kp, MultipartyKeyGen cp shares aC eC = Except.ok kp ∧
      kp.secretKey.params = cp.elementParams ∧
      kp.secretKey.fmt = Format.EVALUATION ∧
      kp.secretKey.coeffs.length = cp.elementParams.N ∧
      (∀ j, j < cp.elementParams.N →
        kp.secretKey.coeffs.getD j 0 =
          (shares.map (fun sh => sh.coeffs.getD j 0)).sum % cp.elementParams.q) ∧
      kp.publicKey.2 = ⟨cp.elementParams, Format.EVALUATION, aC⟩ ∧
      kp.publicKey.1.params = cp.elementParams ∧
      kp.publicKey.1.fmt = Format.EVALUATION ∧
      (∀ j, j < cp.elementParams.N →
        kp.publicKey.1.coeffs.getD j 0 =
          (cp.ns * eC.getD j 0 - aC.getD j 0 * kp.secretKey.coeffs.getD j 0)
            % cp.elementParams.q) := by
  set ep := cp.elementParams with hep
  have hz : (elemZero ep Format.EVALUATION).coeffs.length = ep.N := by
    simp [elemZero]
  obtain ⟨s, hs, hps, hfs, hls, hgs⟩ :=
    sumShares_char shares (elemZero ep Format.EVALUATION)
      (fun si hm => hp si hm) (fun si hm => by rw [hz]; exact hl si hm) hne
  have hps2 : s.params = ep := hps
  have hfs2 : s.fmt = Format.EVALUATION := hfs
  have hls2 : s.coeffs.length = ep.N := by rw [hls]; exact hz
  have hgs2 : ∀ j, j < ep.N →
      s.coeffs.getD j 0 =
        (shares.map (fun sh => sh.coeffs.getD j 0)).sum % ep.q := by
    intro j hj
    have := hgs j (by rw [hz]; exact hj)
    simpa [elemZero, getD_replicate_zero] using this
  have hmul := elemMul_of_params_eq (⟨ep, Format.EVALUATION, aC⟩ : Element) s hps2.symm
  have hsub := elemSub_of_params_eq
    (scalarMul cp.ns (⟨ep, Format.EVALUATION, eC⟩ : Element))
    (⟨ep, Format.EVALUATION,
      List.zipWith (fun u v => (u * v) % ep.q) aC s.coeffs⟩ : Element) rfl
  have hrun : MultipartyKeyGen cp shares aC eC =
      Except.ok ⟨s,
        (⟨ep, Format.EVALUATION,
          List.zipWith (fun u v => (u - v) % ep.q)
            (eC.map (fun u => (cp.ns * u) % ep.q))
            (List.zipWith (fun u v => (u * v) % ep.q) aC s.coeffs)⟩,
         ⟨ep, Format.EVALUATION, aC⟩)⟩ := by
    simp only [MultipartyKeyGen, ← hep]
    rw [hs]
    simp only [bind, Except.bind, hmul, liftO]
    rw [hsub]
    rfl
  refine ⟨_, hrun, hps2, hfs2, hls2, hgs2, rfl, rfl, rfl, ?_⟩
  intro j hj
  have hlm : j < (eC.map (fun u => (cp.ns * u) % ep.q)).length := by
    rw [List.length_map, he]; exact hj
  have hlz : j < (List.zipWith (fun u v => (u * v) % ep.q) aC s.coeffs).length := by
    rw [List.length_zipWith, ha, hls2]; simpa using hj
  rw [getD_zipWith _ _ _ j hlm hlz]
  rw [getD_map _ _ j (by rw [he]; exact hj)]
  rw [getD_zipWith _ _ _ j (by rw [ha]; exact hj) (by rw [hls2]; exact hj)]
  rw [emod_sub_both]

/-- Witness for claim C1 at a concrete input: two shares over parameters
N = 2, M = 4, q = 7, with a = (2,3), e = (1,1) and ns = 2. -/
theorem claim_C1_witness :
    (([⟨⟨2, 4, 7⟩, Format.EVALUATION, [1, 2]⟩,
       ⟨⟨2, 4, 7⟩, Format.EVALUATION, [3, 4]⟩] : List Lbcrypto.Element) ≠ [] ∧
     (∀ sh ∈ ([⟨⟨2, 4, 7⟩, Format.EVALUATION, [1, 2]⟩,
               ⟨⟨2, 4, 7⟩, Format.EVALUATION, [3, 4]⟩] : List Lbcrypto.Element),
        sh.params = (⟨⟨2, 4, 7⟩, 2, Mode.OPTIMIZED, 4⟩ : CryptoParams).elementParams) ∧
     ([2, 3] : List Int).length = 2 ∧ ([1, 1] : List Int).length = 2) ∧
    (∃ kp, MultipartyKeyGen ⟨⟨2, 4, 7⟩, 2, Mode.OPTIMIZED, 4⟩
        [⟨⟨2, 4, 7⟩, Format.EVALUATION, [1, 2]⟩,
         ⟨⟨2, 4, 7⟩, Format.EVALUATION, [3, 4]⟩] [2, 3] [1, 1] = Except.ok kp ∧
      kp.secretKey.params = (⟨⟨2, 4, 7⟩, 2, Mode.OPTIMIZED, 4⟩ : CryptoParams).elementParams ∧
      kp.secretKey.fmt = Format.EVALUATION ∧
      kp.secretKey.coeffs.length = 2 ∧
      (∀ j, j < 2 →
        kp.secretKey.coeffs.getD j 0 =
          (([⟨⟨2, 4, 7⟩, Format.EVALUATION, [1, 2]⟩,
             ⟨⟨2, 4, 7⟩, Format.EVALUATION, [3, 4]⟩] : List Lbcrypto.Element).map
            (fun sh => sh.coeffs.getD j 0)).sum % 7) ∧
      kp.publicKey.2 = ⟨⟨2, 4, 7⟩, Format.EVALUATION, [2, 3]⟩ ∧
      kp.publicKey.1.params = (⟨⟨2, 4, 7⟩, 2, Mode.OPTIMIZED, 4⟩ : CryptoParams).elementParams ∧
      kp.publicKey.1.fmt = Format.EVALUATION ∧
      (∀ j, j < 2 →
        kp.publicKey.1.coeffs.getD j 0 =
          (2 * ([1, 1] : List Int).getD j 0 -
            ([2, 3] : List Int).getD j 0 * kp.secretKey.coeffs.getD j 0) % 7)) :=
  ⟨⟨by decide, by decide, by decide, by decide⟩,
   claim_C1 ⟨⟨2, 4, 7⟩, 2, Mode.OPTIMIZED, 4⟩
     [⟨⟨2, 4, 7⟩, Format.EVALUATION, [1, 2]⟩,
      ⟨⟨2, 4, 7⟩, Format.EVALUATION, [3, 4]⟩] [2, 3] [1, 1]
     (by decide) (by decide) (by decide) (by decide) (by decide)⟩

/-- Claim C7: MultipartyKeyGen over a share vector fails (with the
parameter-mismatch error of the external ring addition) whenever two input
shares carry differing ring parameters, surfacing the error instead of
returning a key pair. -/
theorem claim_C7 (cp : CryptoParams) (shares : List Element) (aC eC : List Int)
    (s1 s2 : Element) (h1 : s1 ∈ shares) (h2 : s2 ∈ shares)
    (hne : s1.params ≠ s2.params) :
    MultipartyKeyGen cp shares aC eC = Except.error Err.ParamMismatch := by
  rcases sumShares_ok_or_mismatch shares
      (elemZero cp.elementParams Format.EVALUATION) with ⟨s, hs⟩ | herr
  · exfalso
    have hp := sumShares_ok_params shares _ s hs
    exact hne ((hp s1 h1).trans (hp s2 h2).symm)
  · simp only [MultipartyKeyGen]
    rw [herr]
    rfl

/-- Witness for claim C7 at a concrete input: two shares with ring
dimensions 2 and 1 respectively. -/
theorem claim_C7_witness :
    ((⟨⟨2, 4, 7⟩, Format.EVALUATION, [1, 2]⟩ : Element) ∈
       ([⟨⟨2, 4, 7⟩, Format.EVALUATION, [1, 2]⟩,
         ⟨⟨1, 2, 7⟩, Format.EVALUATION, [3]⟩] : List Element) ∧
     (⟨⟨1, 2, 7⟩, Format.EVALUATION, [3]⟩ : Element) ∈
       ([⟨⟨2, 4, 7⟩, Format.EVALUATION, [1, 2]⟩,
         ⟨⟨1, 2, 7⟩, Format.EVALUATION, [3]⟩] : List Element) ∧
     (⟨⟨2, 4, 7⟩, Format.EVALUATION, [1, 2]⟩ : Element).params ≠
       (⟨⟨1, 2, 7⟩, Format.EVALUATION, [3]⟩ : Element).params) ∧
    MultipartyKeyGen ⟨⟨2, 4, 7⟩, 2, Mode.OPTIMIZED, 4⟩
      [⟨⟨2, 4, 7⟩, Format.EVALUATION, [1, 2]⟩,
       ⟨⟨1, 2, 7⟩, Format.EVALUATION, [3]⟩] [2, 3] [1, 1] =
      Except.error Err.ParamMismatch :=
  ⟨⟨by decide, by decide, by decide⟩,
   claim_C7 ⟨⟨2, 4, 7⟩, 2, Mode.OPTIMIZED, 4⟩
     [⟨⟨2, 4, 7⟩, Format.EVALUATION, [1, 2]⟩,
      ⟨⟨1, 2, 7⟩, Format.EVALUATION, [3]⟩] [2, 3] [1, 1]
     ⟨⟨2, 4, 7⟩, Format.EVALUATION, [1, 2]⟩
     ⟨⟨1, 2, 7⟩, Format.EVALUATION, [3]⟩
     (by decide) (by decide) (by decide)⟩

/-- Characterization of the shared tail of extend-mode key generation on
well-formed inputs. -/
theorem keyGenPKBody_char (cp : CryptoParams) (pk : PubKeyE) (fresh : Bool)
    (s : Element) (eC : List Int)
    (hsp : s.params = cp.elementParams)
    (hap : pk.2.params = cp.elementParams)
    (hbp : pk.1.params = cp.elementParams)
    (hsl : s.coeffs.length = cp.elementParams.N)
    (hal : pk.2.coeffs.length = cp.elementParams.N)
    (hbl : pk.1.coeffs.length = cp.elementParams.N)
    (hel : eC.length = cp.elementParams.N) :
    ∃ b, keyGenPKBody cp pk fresh s eC = Except.ok ⟨s, (b, pk.2)⟩ ∧
      b.params = cp.elementParams ∧ b.fmt = Format.EVALUATION ∧
      (fresh = true → ∀ j, j < cp.elementParams.N →
        b.coeffs.getD j 0 =
          (cp.ns * eC.getD j 0 - pk.2.coeffs.getD j 0 * s.coeffs.getD j 0)
            % cp.elementParams.q) ∧
      (fresh = false → ∀ j, j < cp.elementParams.N →
        b.coeffs.getD j 0 =
          (cp.ns * eC.getD j 0 - pk.2.coeffs.getD j 0 * s.coeffs.getD j 0
            + pk.1.coeffs.getD j 0) % cp.elementParams.q) := by
  set ep := cp.elementParams with hep
  have hmul := elemMul_of_params_eq pk.2 s (hap.trans hsp.symm)
  rw [hap] at hmul
  set tC : List Int :=
    List.zipWith (fun u v => (u - v) % ep.q)
      (eC.map (fun u => (cp.ns * u) % ep.q))
      (List.zipWith (fun u v => (u * v) % ep.q) pk.2.coeffs s.coeffs) with htCdef
  have hsub2 : elemSub (scalarMul cp.ns (⟨ep, Format.EVALUATION, eC⟩ : Element))
      (⟨ep, pk.2.fmt,
        List.zipWith (fun u v => (u * v) % ep.q) pk.2.coeffs s.coeffs⟩ : Element) =
      some ⟨ep, Format.EVALUATION, tC⟩ :=
    elemSub_of_params_eq _ _ rfl
  have htC : ∀ j, j < ep.N → tC.getD j 0 =
      (cp.ns * eC.getD j 0 - pk.2.coeffs.getD j 0 * s.coeffs.getD j 0) % ep.q := by
    intro j hj
    rw [htCdef]
    rw [getD_zipWith _ _ _ j (by rw [List.length_map, hel]; exact hj)
      (by rw [List.length_zipWith, hal, hsl]; simpa using hj)]
    rw [getD_map _ _ j (by rw [hel]; exact hj)]
    rw [getD_zipWith _ _ _ j (by rw [hal]; exact hj) (by rw [hsl]; exact hj)]
    rw [emod_sub_both]
  cases fresh with
  | true =>
    have hrun : keyGenPKBody cp pk true s eC =
        Except.ok ⟨s, (⟨ep, Format.EVALUATION, tC⟩, pk.2)⟩ := by
      simp only [keyGenPKBody]
      rw [hmul]
      simp only [liftO, bind, Except.bind]
      rw [hsub2]
      rfl
    exact ⟨⟨ep, Format.EVALUATION, tC⟩, hrun, rfl, rfl,
      fun _ => htC, fun h => absurd h (by simp)⟩
  | false =>
    have hadd := elemAdd_of_params_eq
      (⟨ep, Format.EVALUATION, tC⟩ : Element) pk.1 hbp.symm
    have hrun : keyGenPKBody cp pk false s eC =
        Except.ok ⟨s, (⟨ep, Format.EVALUATION,
          List.zipWith (fun u v => (u + v) % ep.q) tC pk.1.coeffs⟩, pk.2)⟩ := by
      simp only [keyGenPKBody]
      rw [hmul]
      simp only [liftO, bind, Except.bind]
      rw [hsub2]
      simp only [Bool.false_eq_true, if_false, ite_false]
      rw [hadd]
    refine ⟨_, hrun, rfl, rfl, fun h => absurd h (by simp), fun _ => ?_⟩
    intro j hj
    have hltC : tC.length = ep.N := by
      rw [htCdef]
      rw [List.length_zipWith, List.length_map, List.length_zipWith, hel, hal, hsl]
      simp
    rw [getD_zipWith _ _ _ j (by rw [hltC]; exact hj) (by rw [hbl]; exact hj)]
    rw [htC j hj, emod_add_left]

/-- Claim C2: extend-mode key generation draws the new local secret from
the distribution selected by the mode (RLWE: Gaussian dgg; OPTIMIZED:
ternary tug; SPARSE: ternary with Hamming weight 64), draws e from dgg, and
returns a public key whose second component is the predecessor's a
unchanged and whose first component is ns*e - a*s when fresh = true and
ns*e - a*s + b_prev when fresh = false. -/
theorem claim_C2 (cp : CryptoParams) (pk : PubKeyE) (fresh : Bool)
    (sDgg sTug sSparse64 eC : List Int)
    (hap : pk.2.params = cp.elementParams)
    (hbp : pk.1.params = cp.elementParams)
    (hal : pk.2.coeffs.length = cp.elementParams.N)
    (hbl : pk.1.coeffs.length = cp.elementParams.N)
    (hd : sDgg.length = cp.elementParams.N)
    (ht : sTug.length = cp.elementParams.N)
    (hsp : sSparse64.length = cp.elementParams.N)
    (hel : eC.length = cp.elementParams.N) :
    ∃ kp, MultipartyKeyGenPK cp pk fresh sDgg sTug sSparse64 eC = Except.ok kp ∧
      kp.publicKey.2 = pk.2 ∧
      (cp.mode = Mode.RLWE →
        kp.secretKey = ⟨cp.elementParams, Format.EVALUATION, sDgg⟩) ∧
      (cp.mode = Mode.OPTIMIZED →
        kp.secretKey = ⟨cp.elementParams, Format.EVALUATION, sTug⟩) ∧
      (cp.mode = Mode.SPARSE →
        kp.secretKey = ⟨cp.elementParams, Format.EVALUATION, sSparse64⟩) ∧
      kp.publicKey.1.params = cp.elementParams ∧
      kp.publicKey.1.fmt = Format.EVALUATION ∧
      (fresh = true → ∀ j, j < cp.elementParams.N →
        kp.publicKey.1.coeffs.getD j 0 =
          (cp.ns * eC.getD j 0 -
            pk.2.coeffs.getD j 0 * kp.secretKey.coeffs.getD j 0)
            % cp.elementParams.q) ∧
      (fresh = false → ∀ j, j < cp.elementParams.N →
        kp.publicKey.1.coeffs.getD j 0 =
          (cp.ns * eC.getD j 0 -
            pk.2.coeffs.getD j 0 * kp.secretKey.coeffs.getD j 0
            + pk.1.coeffs.getD j 0) % cp.elementParams.q) := by
  cases hm : cp.mode with
  | RLWE =>
    obtain ⟨b, hrun, hbpar, hbfmt, hfT, hfF⟩ := keyGenPKBody_char cp pk fresh
      (⟨cp.elementParams, Format.EVALUATION, sDgg⟩ : Element) eC rfl hap hbp hd hal hbl hel
    refine ⟨⟨⟨cp.elementParams, Format.EVALUATION, sDgg⟩, (b, pk.2)⟩, ?_, rfl,
      fun _ => rfl, fun h => absurd h (by decide),
      fun h => absurd h (by decide), hbpar, hbfmt, hfT, hfF⟩
    simp only [MultipartyKeyGenPK, hm]
    exact hrun
  | OPTIMIZED =>
    obtain ⟨b, hrun, hbpar, hbfmt, hfT, hfF⟩ := keyGenPKBody_char cp pk fresh
      (⟨cp.elementParams, Format.EVALUATION, sTug⟩ : Element) eC rfl hap hbp ht hal hbl hel
    refine ⟨⟨⟨cp.elementParams, Format.EVALUATION, sTug⟩, (b, pk.2)⟩, ?_,
      rfl, fun h => absurd h (by decide), fun _ => rfl,
      fun h => absurd h (by decide), hbpar, hbfmt, hfT, hfF⟩
    simp only [MultipartyKeyGenPK, hm]
    exact hrun
  | SPARSE =>
    obtain ⟨b, hrun, hbpar, hbfmt, hfT, hfF⟩ := keyGenPKBody_char cp pk fresh
      (⟨cp.elementParams, Format.EVALUATION, sSparse64⟩ : Element) eC rfl hap hbp hsp hal hbl hel
    refine ⟨⟨⟨cp.elementParams, Format.EVALUATION, sSparse64⟩, (b, pk.2)⟩, ?_,
      rfl, fun h => absurd h (by decide),
      fun h => absurd h (by decide), fun _ => rfl,
      hbpar, hbfmt, hfT, hfF⟩
    simp only [MultipartyKeyGenPK, hm]
    exact hrun

/-- Witness for claim C2 at a concrete input: chaining (fresh = false) onto
a predecessor public key over parameters N = 1, M = 2, q = 7, in OPTIMIZED
mode. -/
theorem claim_C2_witness :
    ((⟨⟨⟨1, 2, 7⟩, Format.EVALUATION, [3]⟩,
       ⟨⟨1, 2, 7⟩, Format.EVALUATION, [2]⟩⟩ : PubKeyE).2.params = ⟨1, 2, 7⟩ ∧
     (⟨⟨⟨1, 2, 7⟩, Format.EVALUATION, [3]⟩,
       ⟨⟨1, 2, 7⟩, Format.EVALUATION, [2]⟩⟩ : PubKeyE).1.params = ⟨1, 2, 7⟩ ∧
     ([1] : List Int).length = 1) ∧
    (∃ kp, MultipartyKeyGenPK ⟨⟨1, 2, 7⟩, 2, Mode.OPTIMIZED, 4⟩
        ⟨⟨⟨1, 2, 7⟩, Format.EVALUATION, [3]⟩,
         ⟨⟨1, 2, 7⟩, Format.EVALUATION, [2]⟩⟩ false [0] [1] [0] [1] =
        Except.ok kp ∧
      kp.publicKey.2 = ⟨⟨1, 2, 7⟩, Format.EVALUATION, [2]⟩ ∧
      ((⟨⟨1, 2, 7⟩, 2, Mode.OPTIMIZED, 4⟩ : CryptoParams).mode = Mode.RLWE →
        kp.secretKey = ⟨⟨1, 2, 7⟩, Format.EVALUATION, [0]⟩) ∧
      ((⟨⟨1, 2, 7⟩, 2, Mode.OPTIMIZED, 4⟩ : CryptoParams).mode = Mode.OPTIMIZED →
        kp.secretKey = ⟨⟨1, 2, 7⟩, Format.EVALUATION, [1]⟩) ∧
      ((⟨⟨1, 2, 7⟩, 2, Mode.OPTIMIZED, 4⟩ : CryptoParams).mode = Mode.SPARSE →
        kp.secretKey = ⟨⟨1, 2, 7⟩, Format.EVALUATION, [0]⟩) ∧
      kp.publicKey.1.params = ⟨1, 2, 7⟩ ∧
      kp.publicKey.1.fmt = Format.EVALUATION ∧
      (false = true → ∀ j, j < 1 →
        kp.publicKey.1.coeffs.getD j 0 =
          (2 * ([1] : List Int).getD j 0 -
            ([2] : List Int).getD j 0 * kp.secretKey.coeffs.getD j 0) % 7) ∧
      (false = false → ∀ j, j < 1 →
        kp.publicKey.1.coeffs.getD j 0 =
          (2 * ([1] : List Int).getD j 0 -
            ([2] : List Int).getD j 0 * kp.secretKey.coeffs.getD j 0
            + ([3] : List Int).getD j 0) % 7)) :=
  ⟨⟨by decide, by decide, by decide⟩,
   claim_C2 ⟨⟨1, 2, 7⟩, 2, Mode.OPTIMIZED, 4⟩
     ⟨⟨⟨1, 2, 7⟩, Format.EVALUATION, [3]⟩,
      ⟨⟨1, 2, 7⟩, Format.EVALUATION, [2]⟩⟩ false [0] [1] [0] [1]
     (by decide) (by decide) (by decide) (by decide) (by decide) (by decide)
     (by decide) (by decide)⟩

/-- Claim C3: on a well-formed ciphertext (c0, c1) and secret share s,
MultipartyDecryptLead returns a ciphertext carrying the single element
b = c0 + s*c1 + ns*e switched to coefficient format, and
MultipartyDecryptMain returns the single element b = s*c1 + ns*e left in
evaluation format, where in each case e is the Gaussian sample of standard
deviation MP_SD supplied to the call. -/
theorem claim_C3 (cp : CryptoParams) (c0 c1 s : Element) (eLead eMain : List Int)
    (hp0 : c0.params = cp.elementParams)
    (hp1 : c1.params = cp.elementParams)
    (hps : s.params = cp.elementParams)
    (hf0 : c0.fmt = Format.EVALUATION)
    (hfs : s.fmt = Format.EVALUATION)
    (hl0 : c0.coeffs.length = cp.elementParams.N)
    (hl1 : c1.coeffs.length = cp.elementParams.N)
    (hls : s.coeffs.length = cp.elementParams.N)
    (helLead : eLead.length = cp.elementParams.N)
    (helMain : eMain.length = cp.elementParams.N) :
    (∃ bL, MultipartyDecryptLead cp [c0, c1] s eLead = Except.ok [bL] ∧
      bL.params = cp.elementParams ∧ bL.fmt = Format.COEFFICIENT ∧
      ∀ j, j < cp.elementParams.N →
        bL.coeffs.getD j 0 =
          (c0.coeffs.getD j 0 + s.coeffs.getD j 0 * c1.coeffs.getD j 0
            + cp.ns * eLead.getD j 0) % cp.elementParams.q) ∧
    (∃ bM, MultipartyDecryptMain cp [c0, c1] s eMain = Except.ok [bM] ∧
      bM.params = cp.elementParams ∧ bM.fmt = Format.EVALUATION ∧
      ∀ j, j < cp.elementParams.N →
        bM.coeffs.getD j 0 =
          (s.coeffs.getD j 0 * c1.coeffs.getD j 0
            + cp.ns * eMain.getD j 0) % cp.elementParams.q) := by
  set ep := cp.elementParams with hep
  have hmul := elemMul_of_params_eq s c1 (hps.trans hp1.symm)
  rw [hps, hfs] at hmul
  set scC : List Int :=
    List.zipWith (fun u v => (u * v) % ep.q) s.coeffs c1.coeffs with hscC
  have hsclen : scC.length = ep.N := by
    rw [hscC, List.length_zipWith, hls, hl1]; simp
  have hscg : ∀ j, j < ep.N → scC.getD j 0 =
      (s.coeffs.getD j 0 * c1.coeffs.getD j 0) % ep.q := by
    intro j hj
    rw [hscC]
    exact getD_zipWith _ _ _ j (by rw [hls]; exact hj) (by rw [hl1]; exact hj)
  constructor
  · have haddc0 := elemAdd_of_params_eq c0
      (⟨ep, Format.EVALUATION, scC⟩ : Element) hp0
    rw [hp0, hf0] at haddc0
    set tC : List Int :=
      List.zipWith (fun u v => (u + v) % ep.q) c0.coeffs scC with htC
    have htlen : tC.length = ep.N := by
      rw [htC, List.length_zipWith, hl0, hsclen]; simp
    have hadde := elemAdd_of_params_eq (⟨ep, Format.EVALUATION, tC⟩ : Element)
      (scalarMul cp.ns (⟨ep, Format.EVALUATION, eLead⟩ : Element)) rfl
    have hrun : MultipartyDecryptLead cp [c0, c1] s eLead =
        Except.ok [switchFormat ⟨ep, Format.EVALUATION,
          List.zipWith (fun u v => (u + v) % ep.q) tC
            (eLead.map (fun u => (cp.ns * u) % ep.q))⟩] := by
      simp only [MultipartyDecryptLead, List.get?, liftO, bind, Except.bind]
      rw [hmul]
      simp only []
      rw [haddc0]
      simp only []
      rw [hadde]
      rfl
    refine ⟨_, hrun, rfl, rfl, ?_⟩
    intro j hj
    show (List.zipWith (fun u v => (u + v) % ep.q) tC
      (eLead.map (fun u => (cp.ns * u) % ep.q))).getD j 0 = _
    rw [getD_zipWith _ _ _ j (by rw [htlen]; exact hj)
      (by rw [List.length_map, helLead]; exact hj)]
    rw [getD_map _ _ j (by rw [helLead]; exact hj)]
    rw [htC, getD_zipWith _ _ _ j (by rw [hl0]; exact hj) (by rw [hsclen]; exact hj)]
    rw [hscg j hj]
    rw [emod_triple_add]
  · have hadde := elemAdd_of_params_eq (⟨ep, Format.EVALUATION, scC⟩ : Element)
      (scalarMul cp.ns (⟨ep, Format.EVALUATION, eMain⟩ : Element)) rfl
    have hrun : MultipartyDecryptMain cp [c0, c1] s eMain =
        Except.ok [⟨ep, Format.EVALUATION,
          List.zipWith (fun u v => (u + v) % ep.q) scC
            (eMain.map (fun u => (cp.ns * u) % ep.q))⟩] := by
      simp only [MultipartyDecryptMain, List.get?, liftO, bind, Except.bind]
      rw [hmul]
      simp only []
      rw [hadde]
      rfl
    refine ⟨_, hrun, rfl, rfl, ?_⟩
    intro j hj
    show (List.zipWith (fun u v => (u + v) % ep.q) scC
      (eMain.map (fun u => (cp.ns * u) % ep.q))).getD j 0 = _
    rw [getD_zipWith _ _ _ j (by rw [hsclen]; exact hj)
      (by rw [List.length_map, helMain]; exact hj)]
    rw [getD_map _ _ j (by rw [helMain]; exact hj)]
    rw [hscg j hj]
    rw [emod_add_both]

/-- Witness for claim C3 at a concrete input over parameters N = 1, M = 2,
q = 7, with ns = 2. -/
theorem claim_C3_witness :
    ((⟨⟨1, 2, 7⟩, Format.EVALUATION, [1]⟩ : Element).params = ⟨1, 2, 7⟩ ∧
     (⟨⟨1, 2, 7⟩, Format.EVALUATION, [2]⟩ : Element).params = ⟨1, 2, 7⟩ ∧
     (⟨⟨1, 2, 7⟩, Format.EVALUATION, [3]⟩ : Element).params = ⟨1, 2, 7⟩ ∧
     ([1] : List Int).length = 1) ∧
    ((∃ bL, MultipartyDecryptLead ⟨⟨1, 2, 7⟩, 2, Mode.OPTIMIZED, 4⟩
        [⟨⟨1, 2, 7⟩, Format.EVALUATION, [1]⟩, ⟨⟨1, 2, 7⟩, Format.EVALUATION, [2]⟩]
        ⟨⟨1, 2, 7⟩, Format.EVALUATION, [3]⟩ [1] = Except.ok [bL] ∧
      bL.params = ⟨1, 2, 7⟩ ∧ bL.fmt = Format.COEFFICIENT ∧
      ∀ j, j < 1 → bL.coeffs.getD j 0 =
        ((⟨⟨1, 2, 7⟩, Format.EVALUATION, [1]⟩ : Element).coeffs.getD j 0 +
          (⟨⟨1, 2, 7⟩, Format.EVALUATION, [3]⟩ : Element).coeffs.getD j 0 *
            (⟨⟨1, 2, 7⟩, Format.EVALUATION, [2]⟩ : Element).coeffs.getD j 0 +
          2 * ([1] : List Int).getD j 0) % 7) ∧
     (∃ bM, MultipartyDecryptMain ⟨⟨1, 2, 7⟩, 2, Mode.OPTIMIZED, 4⟩
        [⟨⟨1, 2, 7⟩, Format.EVALUATION, [1]⟩, ⟨⟨1, 2, 7⟩, Format.EVALUATION, [2]⟩]
        ⟨⟨1, 2, 7⟩, Format.EVALUATION, [3]⟩ [1] = Except.ok [bM] ∧
      bM.params = ⟨1, 2, 7⟩ ∧ bM.fmt = Format.EVALUATION ∧
      ∀ j, j < 1 → bM.coeffs.getD j 0 =
        ((⟨⟨1, 2, 7⟩, Format.EVALUATION, [3]⟩ : Element).coeffs.getD j 0 *
          (⟨⟨1, 2, 7⟩, Format.EVALUATION, [2]⟩ : Element).coeffs.getD j 0 +
          2 * ([1] : List Int).getD j 0) % 7)) :=
  ⟨⟨by decide, by decide, by decide, by decide⟩,
   claim_C3 ⟨⟨1, 2, 7⟩, 2, Mode.OPTIMIZED, 4⟩
     ⟨⟨1, 2, 7⟩, Format.EVALUATION, [1]⟩ ⟨⟨1, 2, 7⟩, Format.EVALUATION, [2]⟩
     ⟨⟨1, 2, 7⟩, Format.EVALUATION, [3]⟩ [1] [1]
     (by decide) (by decide) (by decide) (by decide) (by decide) (by decide)
     (by decide) (by decide) (by decide) (by decide)⟩

/-- The fusion accumulation loop succeeds on any list of partials whose
first elements all match the accumulator's parameters. -/
theorem fusionLoop_ok (l : List (List Element)) (acc : Element)
    (h : ∀ cv ∈ l, cv ≠ [] ∧
      (cv.head?.getD ⟨acc.params, Format.EVALUATION, []⟩).params = acc.params) :
    ∃ b, fusionLoop acc l = Except.ok b := by
  induction l generalizing acc with
  | nil => exact ⟨acc, rfl⟩
  | cons cv t ih =>
    obtain ⟨hne, hcp⟩ := h cv (List.mem_cons_self cv t)
    cases cv with
    | nil => exact absurd rfl hne
    | cons c rest =>
      have hc : c.params = acc.params := by simpa using hcp
      have hadd := elemAdd_of_params_eq acc c hc.symm
      have hstep : fusionLoop acc ((c :: rest) :: t) =
          fusionLoop ⟨acc.params, acc.fmt,
            List.zipWith (fun u v => (u + v) % acc.params.q) acc.coeffs c.coeffs⟩ t := by
        simp only [fusionLoop, List.get?, liftO, bind, Except.bind]
        rw [hadd]
      rw [hstep]
      exact ih _ (fun cv2 hm => by
        obtain ⟨hne2, hcp2⟩ := h cv2 (List.mem_cons_of_mem _ hm)
        exact ⟨hne2, hcp2⟩)

/-- Counterexample to claim C4 as stated: a set of partial decryptions with
no lead partial (both carry evaluation-format elements, i.e. both are
follower partials as produced by MultipartyDecryptMain) is fused without
any error: the code performs no lead-presence check, so no MalformedPartial
error is surfaced. -/
theorem claim_C4_counterexample :
    MultipartyDecryptFusion
      [[⟨⟨1, 2, 5⟩, Format.EVALUATION, [1]⟩],
       [⟨⟨1, 2, 5⟩, Format.EVALUATION, [1]⟩]] =
      Except.ok (⟨⟨1, 2, 5⟩, Format.COEFFICIENT, [2]⟩, 1) := rfl

/-- Claim C4 amended: MultipartyDecryptFusion performs no lead-presence
validation — any non-empty list of partials whose first elements share
their ring parameters is fused without error, lead present or not; a
parameter mismatch among partials surfaces the math error of the external
ring addition (not a dedicated ParameterMismatch check); and zero partials
is an unguarded out-of-bounds access on the first element rather than a
surfaced EmptyInput error. -/
theorem claim_C4_amended (cts : List (List Element)) (P : RingParams)
    (c1 c2 : Element) (r1 r2 : List Element) :
    (cts ≠ [] →
      (∀ cv ∈ cts, cv ≠ [] ∧
        (cv.head?.getD ⟨P, Format.EVALUATION, []⟩).params = P) →
      (MultipartyDecryptFusion cts).isOk = true) ∧
    MultipartyDecryptFusion ([] : List (List Element)) =
      Except.error Err.OutOfBounds ∧
    (c1.params ≠ c2.params →
      MultipartyDecryptFusion [c1 :: r1, c2 :: r2] =
        Except.error Err.ParamMismatch) := by
  refine ⟨?_, rfl, ?_⟩
  · intro hne h
    cases cts with
    | nil => exact absurd rfl hne
    | cons cv0 rest =>
      obtain ⟨hne0, hcp0⟩ := h cv0 (List.mem_cons_self cv0 rest)
      cases cv0 with
      | nil => exact absurd rfl hne0
      | cons c r =>
        have hc : c.params = P := by simpa using hcp0
        obtain ⟨b, hb⟩ := fusionLoop_ok rest c (fun cv2 hm => by
          obtain ⟨hne2, hcp2⟩ := h cv2 (List.mem_cons_of_mem _ hm)
          refine ⟨hne2, ?_⟩
          rw [hc]
          cases cv2 with
          | nil => exact absurd rfl hne2
          | cons d r2 => simpa using hcp2)
        simp only [MultipartyDecryptFusion, List.get?, liftO, bind, Except.bind,
          List.drop]
        rw [hb]
        rfl
  · intro hne
    simp only [MultipartyDecryptFusion, List.get?, liftO, bind, Except.bind,
      List.drop, fusionLoop]
    rw [elemAdd_none c1 c2 hne]

/-- Witness for the amended claim C4, applying it at concrete inputs: two
follower-format partials fuse successfully, the empty input hits the
out-of-bounds path, and mismatched parameters surface the external math
error. -/
theorem claim_C4_amended_witness :
    ((([[⟨⟨1, 2, 5⟩, Format.EVALUATION, [1]⟩],
        [⟨⟨1, 2, 5⟩, Format.EVALUATION, [2]⟩]] : List (List Element)) ≠ [] ∧
      (∀ cv ∈ ([[⟨⟨1, 2, 5⟩, Format.EVALUATION, [1]⟩],
                [⟨⟨1, 2, 5⟩, Format.EVALUATION, [2]⟩]] : List (List Element)),
        cv ≠ [] ∧
          (cv.head?.getD ⟨⟨1, 2, 5⟩, Format.EVALUATION, []⟩).params = ⟨1, 2, 5⟩) ∧
      (⟨⟨1, 2, 5⟩, Format.EVALUATION, [1]⟩ : Element).params ≠
        (⟨⟨1, 2, 7⟩, Format.EVALUATION, [1]⟩ : Element).params) ∧
     ((MultipartyDecryptFusion
        [[⟨⟨1, 2, 5⟩, Format.EVALUATION, [1]⟩],
         [⟨⟨1, 2, 5⟩, Format.EVALUATION, [2]⟩]]).isOk = true ∧
      MultipartyDecryptFusion ([] : List (List Element)) =
        Except.error Err.OutOfBounds ∧
      MultipartyDecryptFusion
        [⟨⟨1, 2, 5⟩, Format.EVALUATION, [1]⟩ :: [],
         ⟨⟨1, 2, 7⟩, Format.EVALUATION, [1]⟩ :: []] =
        Except.error Err.ParamMismatch)) :=
  ⟨⟨by decide, by decide, by decide⟩,
   (claim_C4_amended
      [[⟨⟨1, 2, 5⟩, Format.EVALUATION, [1]⟩],
       [⟨⟨1, 2, 5⟩, Format.EVALUATION, [2]⟩]] ⟨1, 2, 5⟩
      ⟨⟨1, 2, 5⟩, Format.EVALUATION, [1]⟩ ⟨⟨1, 2, 7⟩, Format.EVALUATION, [1]⟩
      [] []).1 (by decide) (by decide),
   (claim_C4_amended ([] : List (List Element)) ⟨1, 2, 5⟩
      ⟨⟨1, 2, 5⟩, Format.EVALUATION, [1]⟩ ⟨⟨1, 2, 7⟩, Format.EVALUATION, [1]⟩
      [] []).2.1,
   (claim_C4_amended ([] : List (List Element)) ⟨1, 2, 5⟩
      ⟨⟨1, 2, 5⟩, Format.EVALUATION, [1]⟩ ⟨⟨1, 2, 7⟩, Format.EVALUATION, [1]⟩
      [] []).2.2 (by decide)⟩

/-- The b-vector summation loop is symmetric in its two b-vectors when all
their entries are in evaluation format. -/
theorem addBLoop_comm (b1 b2 : List Element)
    (h1 : ∀ x ∈ b1, x.fmt = Format.EVALUATION)
    (h2 : ∀ x ∈ b2, x.fmt = Format.EVALUATION) (l : List Nat) :
    addBLoop b1 b2 l = addBLoop b2 b1 l := by
  induction l with
  | nil => rfl
  | cons i rest ih =>
    cases hb1 : b1.get? i with
    | none =>
      cases hb2 : b2.get? i with
      | none => simp only [addBLoop, liftO, bind, Except.bind, hb1, hb2]
      | some y => simp only [addBLoop, liftO, bind, Except.bind, hb1, hb2]
    | some x =>
      cases hb2 : b2.get? i with
      | none => simp only [addBLoop, liftO, bind, Except.bind, hb1, hb2]
      | some y =>
        have hfx : x.fmt = Format.EVALUATION := h1 x (List.get?_mem hb1)
        have hfy : y.fmt = Format.EVALUATION := h2 y (List.get?_mem hb2)
        simp only [addBLoop, liftO, bind, Except.bind, hb1, hb2]
        rw [elemAdd_comm x y (hfx.trans hfy.symm), ih]

/-- Claim C9: MultiAddPubKeys is commutative on public keys (evaluation
format, per the data model) whose a components are equal, and
MultiAddEvalKeys is commutative on evaluation keys (evaluation format)
whose A-vectors are equal. -/
theorem claim_C9 (pk1 pk2 : PubKeyE) (ek1 ek2 : EvalKeyE)
    (hb1 : pk1.1.fmt = Format.EVALUATION) (hb2 : pk2.1.fmt = Format.EVALUATION)
    (he1 : ∀ x ∈ ek1.bvec, x.fmt = Format.EVALUATION)
    (he2 : ∀ x ∈ ek2.bvec, x.fmt = Format.EVALUATION) :
    (pk1.2 = pk2.2 → MultiAddPubKeys pk1 pk2 = MultiAddPubKeys pk2 pk1) ∧
    (ek1.avec = ek2.avec → MultiAddEvalKeys ek1 ek2 = MultiAddEvalKeys ek2 ek1) := by
  constructor
  · intro ha
    simp only [MultiAddPubKeys, liftO, bind, Except.bind]
    rw [elemAdd_comm pk1.1 pk2.1 (hb1.trans hb2.symm), ha]
  · intro ha
    simp only [MultiAddEvalKeys, liftO, bind, Except.bind]
    rw [addBLoop_comm ek1.bvec ek2.bvec he1 he2, ha]

/-- Witness for claim C9 at concrete inputs with equal a components and
equal A-vectors. -/
theorem claim_C9_witness :
    (((⟨⟨1, 2, 7⟩, Format.EVALUATION, [1]⟩, ⟨⟨1, 2, 7⟩, Format.EVALUATION, [4]⟩) :
        PubKeyE).1.fmt = Format.EVALUATION ∧
     ((⟨⟨1, 2, 7⟩, Format.EVALUATION, [2]⟩, ⟨⟨1, 2, 7⟩, Format.EVALUATION, [4]⟩) :
        PubKeyE).1.fmt = Format.EVALUATION ∧
     ((⟨⟨1, 2, 7⟩, Format.EVALUATION, [1]⟩, ⟨⟨1, 2, 7⟩, Format.EVALUATION, [4]⟩) :
        PubKeyE).2 =
       ((⟨⟨1, 2, 7⟩, Format.EVALUATION, [2]⟩, ⟨⟨1, 2, 7⟩, Format.EVALUATION, [4]⟩) :
        PubKeyE).2 ∧
     (⟨[⟨⟨1, 2, 7⟩, Format.EVALUATION, [3]⟩], [⟨⟨1, 2, 7⟩, Format.EVALUATION, [5]⟩]⟩ :
        EvalKeyE).avec =
       (⟨[⟨⟨1, 2, 7⟩, Format.EVALUATION, [3]⟩], [⟨⟨1, 2, 7⟩, Format.EVALUATION, [6]⟩]⟩ :
        EvalKeyE).avec) ∧
    (MultiAddPubKeys
        (⟨⟨1, 2, 7⟩, Format.EVALUATION, [1]⟩, ⟨⟨1, 2, 7⟩, Format.EVALUATION, [4]⟩)
        (⟨⟨1, 2, 7⟩, Format.EVALUATION, [2]⟩, ⟨⟨1, 2, 7⟩, Format.EVALUATION, [4]⟩) =
      MultiAddPubKeys
        (⟨⟨1, 2, 7⟩, Format.EVALUATION, [2]⟩, ⟨⟨1, 2, 7⟩, Format.EVALUATION, [4]⟩)
        (⟨⟨1, 2, 7⟩, Format.EVALUATION, [1]⟩, ⟨⟨1, 2, 7⟩, Format.EVALUATION, [4]⟩) ∧
     MultiAddEvalKeys
        ⟨[⟨⟨1, 2, 7⟩, Format.EVALUATION, [3]⟩], [⟨⟨1, 2, 7⟩, Format.EVALUATION, [5]⟩]⟩
        ⟨[⟨⟨1, 2, 7⟩, Format.EVALUATION, [3]⟩], [⟨⟨1, 2, 7⟩, Format.EVALUATION, [6]⟩]⟩ =
      MultiAddEvalKeys
        ⟨[⟨⟨1, 2, 7⟩, Format.EVALUATION, [3]⟩], [⟨⟨1, 2, 7⟩, Format.EVALUATION, [6]⟩]⟩
        ⟨[⟨⟨1, 2, 7⟩, Format.EVALUATION, [3]⟩], [⟨⟨1, 2, 7⟩, Format.EVALUATION, [5]⟩]⟩) :=
  ⟨⟨by decide, by decide, by decide, by decide⟩,
   (claim_C9
      (⟨⟨1, 2, 7⟩, Format.EVALUATION, [1]⟩, ⟨⟨1, 2, 7⟩, Format.EVALUATION, [4]⟩)
      (⟨⟨1, 2, 7⟩, Format.EVALUATION, [2]⟩, ⟨⟨1, 2, 7⟩, Format.EVALUATION, [4]⟩)
      ⟨[⟨⟨1, 2, 7⟩, Format.EVALUATION, [3]⟩], [⟨⟨1, 2, 7⟩, Format.EVALUATION, [5]⟩]⟩
      ⟨[⟨⟨1, 2, 7⟩, Format.EVALUATION, [3]⟩], [⟨⟨1, 2, 7⟩, Format.EVALUATION, [6]⟩]⟩
      (by decide) (by decide) (by decide) (by decide)).1 (by decide),
   (claim_C9
      (⟨⟨1, 2, 7⟩, Format.EVALUATION, [1]⟩, ⟨⟨1, 2, 7⟩, Format.EVALUATION, [4]⟩)
      (⟨⟨1, 2, 7⟩, Format.EVALUATION, [2]⟩, ⟨⟨1, 2, 7⟩, Format.EVALUATION, [4]⟩)
      ⟨[⟨⟨1, 2, 7⟩, Format.EVALUATION, [3]⟩], [⟨⟨1, 2, 7⟩, Format.EVALUATION, [5]⟩]⟩
      ⟨[⟨⟨1, 2, 7⟩, Format.EVALUATION, [3]⟩], [⟨⟨1, 2, 7⟩, Format.EVALUATION, [6]⟩]⟩
      (by decide) (by decide) (by decide) (by decide)).2 (by decide)⟩

/-! ### Association-list map lemmas -/

theorem mapFind_cons_self {α : Type} (k : Nat) (v : α) (m : List (Nat × α)) :
    mapFind k ((k, v) :: m) = some v := by
  simp [mapFind]

theorem mapFind_cons_ne {α : Type} (k2 k : Nat) (v : α) (m : List (Nat × α))
    (h : k2 ≠ k) : mapFind k2 ((k, v) :: m) = mapFind k2 m := by
  simp [mapFind, h]

theorem mapFind_some_mem {α : Type} (k : Nat) (v : α) (m : List (Nat × α))
    (h : mapFind k m = some v) : (k, v) ∈ m := by
  induction m with
  | nil => cases h
  | cons p t ih =>
    obtain ⟨k2, v2⟩ := p
    by_cases hk : k = k2
    · subst hk
      rw [mapFind_cons_self] at h
      cases h
      exact List.mem_cons_self _ _
    · rw [mapFind_cons_ne _ _ _ _ hk] at h
      exact List.mem_cons_of_mem _ (ih h)

theorem mapFind_none_of_forall {α : Type} (k : Nat) (m : List (Nat × α))
    (h : ∀ p ∈ m, k ≠ p.1) : mapFind k m = none := by
  induction m with
  | nil => rfl
  | cons p t ih =>
    obtain ⟨k2, v2⟩ := p
    rw [mapFind_cons_ne _ _ _ _ (h (k2, v2) (List.mem_cons_self _ _))]
    exact ih (fun p2 hm => h p2 (List.mem_cons_of_mem _ hm))

theorem forall_of_mapFind_none {α : Type} (k : Nat) (m : List (Nat × α))
    (h : mapFind k m = none) : ∀ p ∈ m, k ≠ p.1 := by
  induction m with
  | nil => intro p hm; simp at hm
  | cons p t ih =>
    obtain ⟨k2, v2⟩ := p
    intro p2 hm
    by_cases hk : k = k2
    · subst hk
      rw [mapFind_cons_self] at h
      cases h
    · rw [mapFind_cons_ne _ _ _ _ hk] at h
      rcases List.mem_cons.mp hm with hh | hh
      · rw [hh]; exact hk
      · exact ih h p2 hh

theorem mapFind_filter_ne {α : Type} (k2 k : Nat) (m : List (Nat × α))
    (h : k2 ≠ k) :
    mapFind k2 (m.filter (fun p => p.1 != k)) = mapFind k2 m := by
  induction m with
  | nil => rfl
  | cons p t ih =>
    obtain ⟨kp, vp⟩ := p
    by_cases hpk : kp = k
    · have hb : (((kp, vp) : Nat × α).1 != k) = false := by simp [hpk]
      simp only [List.filter_cons, hb, ite_false, Bool.false_eq_true]
      rw [ih, mapFind_cons_ne k2 kp vp t (by rw [hpk]; exact h)]
    · have hb : (((kp, vp) : Nat × α).1 != k) = true := by simp [hpk]
      simp only [List.filter_cons, hb, ite_true]
      by_cases hk2 : k2 = kp
      · subst hk2
        rw [mapFind_cons_self, mapFind_cons_self]
      · rw [mapFind_cons_ne k2 kp vp _ hk2, mapFind_cons_ne k2 kp vp t hk2]
        exact ih

theorem mapFind_mInsert_self {α : Type} (k : Nat) (v : α) (m : List (Nat × α)) :
    mapFind k (mInsert k v m) = some v :=
  mapFind_cons_self k v _

theorem mapFind_mInsert_ne {α : Type} (k2 k : Nat) (v : α) (m : List (Nat × α))
    (h : k2 ≠ k) : mapFind k2 (mInsert k v m) = mapFind k2 m := by
  rw [mInsert, mapFind_cons_ne k2 k v _ h]
  exact mapFind_filter_ne k2 k m h

theorem length_mInsert_of_none {α : Type} (k : Nat) (v : α) (m : List (Nat × α))
    (h : mapFind k m = none) : (mInsert k v m).length = m.length + 1 := by
  have hall := forall_of_mapFind_none k m h
  have : m.filter (fun p => p.1 != k) = m := by
    apply List.filter_eq_self.mpr
    intro p hm
    simp [(hall p hm).symm]
  rw [mInsert, this]
  simp

/-- Claim C5: for automorphism key maps (the first with duplicate-free
indices, as a std::map guarantees) whose common entries can be added,
MultiAddEvalAutomorphismKeys returns a map whose key set is exactly the
intersection of the two key sets, whose value at each common index is
MultiAddEvalKeys of the two entries, and which drops indices present in
only one input; MultiAddEvalSumKeys is the same function. -/
theorem claim_C5 (m1 m2 : List (Nat × EvalKeyE))
    (hnd : (m1.map Prod.fst).Nodup)
    (hok : ∀ p ∈ m1, ∀ p2 ∈ m2, p.1 = p2.1 →
      (MultiAddEvalKeys p.2 p2.2).isOk = true) :
    (∃ r, MultiAddEvalAutomorphismKeys m1 m2 = Except.ok r ∧
      (∀ k, (mapFind k r).isSome = true ↔
        ((mapFind k m1).isSome = true ∧ (mapFind k m2).isSome = true)) ∧
      (∀ k v1 v2 ek, mapFind k m1 = some v1 → mapFind k m2 = some v2 →
        MultiAddEvalKeys v1 v2 = Except.ok ek → mapFind k r = some ek)) ∧
    MultiAddEvalSumKeys m1 m2 = MultiAddEvalAutomorphismKeys m1 m2 := by
  refine ⟨?_, rfl⟩
  induction m1 with
  | nil =>
    refine ⟨[], rfl, ?_, ?_⟩
    · intro k; simp [mapFind]
    · intro k v1 v2 ek h1; cases h1
  | cons p rest ih =>
    obtain ⟨k, v1⟩ := p
    have hnd2 : (rest.map Prod.fst).Nodup := by
      rw [List.map_cons] at hnd
      exact (List.nodup_cons.mp hnd).2
    have hknotin : k ∉ rest.map Prod.fst := by
      rw [List.map_cons] at hnd
      exact (List.nodup_cons.mp hnd).1
    have hfrest : mapFind k rest = none := by
      apply mapFind_none_of_forall
      intro p2 hm hkp
      exact hknotin (by rw [hkp]; exact List.mem_map_of_mem Prod.fst hm)
    obtain ⟨r2, hr2, hiff2, hval2⟩ :=
      ih hnd2 (fun p2 hm q2 hq he => hok p2 (List.mem_cons_of_mem _ hm) q2 hq he)
    cases hfind : mapFind k m2 with
    | none =>
      refine ⟨r2, ?_, ?_, ?_⟩
      · simp only [MultiAddEvalAutomorphismKeys]
        rw [hfind]
        exact hr2
      · intro k2
        by_cases hk : k2 = k
        · subst hk
          rw [hfind]
          constructor
          · intro hsome
            have := (hiff2 k2).mp hsome
            rw [hfind] at this
            exact absurd this.2 (by simp)
          · intro hcon
            exact absurd hcon.2 (by simp)
        · rw [mapFind_cons_ne k2 k v1 rest hk]
          exact hiff2 k2
      · intro k2 w1 w2 ek h1 h2 hek
        by_cases hk : k2 = k
        · subst hk
          rw [hfind] at h2
          cases h2
        · rw [mapFind_cons_ne k2 k v1 rest hk] at h1
          exact hval2 k2 w1 w2 ek h1 h2 hek
    | some v2 =>
      have hokk : (MultiAddEvalKeys v1 v2).isOk = true :=
        hok (k, v1) (List.mem_cons_self _ _) (k, v2)
          (mapFind_some_mem k v2 m2 hfind) rfl
      obtain ⟨ek, hek⟩ : ∃ ek, MultiAddEvalKeys v1 v2 = Except.ok ek := by
        cases hcase : MultiAddEvalKeys v1 v2 with
        | ok ek => exact ⟨ek, rfl⟩
        | error e => rw [hcase] at hokk; cases hokk
      refine ⟨(k, ek) :: r2, ?_, ?_, ?_⟩
      · simp only [MultiAddEvalAutomorphismKeys]
        rw [hfind]
        simp only [bind, Except.bind]
        rw [hek, hr2]
      · intro k2
        by_cases hk : k2 = k
        · subst hk
          rw [mapFind_cons_self, mapFind_cons_self, hfind]
          simp
        · rw [mapFind_cons_ne k2 k ek r2 hk, mapFind_cons_ne k2 k v1 rest hk]
          exact hiff2 k2
      · intro k2 w1 w2 ek2 h1 h2 hek2
        by_cases hk : k2 = k
        · subst hk
          rw [mapFind_cons_self] at h1
          cases h1
          rw [hfind] at h2
          cases h2
          rw [hek] at hek2
          cases hek2
          exact mapFind_cons_self k2 ek r2
        · rw [mapFind_cons_ne k2 k ek r2 hk]
          rw [mapFind_cons_ne k2 k v1 rest hk] at h1
          exact hval2 k2 w1 w2 ek2 h1 h2 hek2

/-- Witness for claim C5 at concrete inputs: maps with key sets {1, 3} and
{3, 9} intersect to {3}. -/
theorem claim_C5_witness :
    ((([(1, (⟨[], []⟩ : EvalKeyE)), (3, ⟨[], []⟩)].map Prod.fst).Nodup ∧
      (∀ p ∈ [(1, (⟨[], []⟩ : EvalKeyE)), (3, ⟨[], []⟩)],
        ∀ p2 ∈ [(3, (⟨[], []⟩ : EvalKeyE)), (9, ⟨[], []⟩)], p.1 = p2.1 →
          (MultiAddEvalKeys p.2 p2.2).isOk = true)) ∧
     ((∃ r, MultiAddEvalAutomorphismKeys
          [(1, (⟨[], []⟩ : EvalKeyE)), (3, ⟨[], []⟩)]
          [(3, (⟨[], []⟩ : EvalKeyE)), (9, ⟨[], []⟩)] = Except.ok r ∧
        (∀ k, (mapFind k r).isSome = true ↔
          ((mapFind k [(1, (⟨[], []⟩ : EvalKeyE)), (3, ⟨[], []⟩)]).isSome = true ∧
           (mapFind k [(3, (⟨[], []⟩ : EvalKeyE)), (9, ⟨[], []⟩)]).isSome = true)) ∧
        (∀ k v1 v2 ek,
          mapFind k [(1, (⟨[], []⟩ : EvalKeyE)), (3, ⟨[], []⟩)] = some v1 →
          mapFind k [(3, (⟨[], []⟩ : EvalKeyE)), (9, ⟨[], []⟩)] = some v2 →
          MultiAddEvalKeys v1 v2 = Except.ok ek → mapFind k r = some ek)) ∧
      MultiAddEvalSumKeys
          [(1, (⟨[], []⟩ : EvalKeyE)), (3, ⟨[], []⟩)]
          [(3, (⟨[], []⟩ : EvalKeyE)), (9, ⟨[], []⟩)] =
        MultiAddEvalAutomorphismKeys
          [(1, (⟨[], []⟩ : EvalKeyE)), (3, ⟨[], []⟩)]
          [(3, (⟨[], []⟩ : EvalKeyE)), (9, ⟨[], []⟩)])) :=
  ⟨⟨by decide, by decide⟩,
   claim_C5 [(1, (⟨[], []⟩ : EvalKeyE)), (3, ⟨[], []⟩)]
     [(3, (⟨[], []⟩ : EvalKeyE)), (9, ⟨[], []⟩)] (by decide) (by decide)⟩

/-! ### Lemmas about the rotation-key generation loop -/

theorem autoKeyGenLoop_cases (autoT : Element → Nat → Element)
    (ksg : Element → Element → EvalKeyE → EvalKeyE) (s : Element)
    (m : List (Nat × EvalKeyE)) (l : List Nat) :
    ∀ acc, (∃ r, autoKeyGenLoop autoT ksg s m l acc = Except.ok r) ∨
      autoKeyGenLoop autoT ksg s m l acc = Except.error Err.MathError ∨
      autoKeyGenLoop autoT ksg s m l acc = Except.error Err.MissingKey := by
  induction l with
  | nil => intro acc; exact Or.inl ⟨acc, rfl⟩
  | cons k rest ih =>
    intro acc
    cases hinv : modInverse k (2 * s.params.N) with
    | none =>
      refine Or.inr (Or.inl ?_)
      simp only [autoKeyGenLoop, liftO, bind, Except.bind, hinv]
    | some kinv =>
      cases hf : mapFind k m with
      | none =>
        refine Or.inr (Or.inr ?_)
        simp only [autoKeyGenLoop, liftO, bind, Except.bind, hinv, hf]
      | some ek0 =>
        have hstep : autoKeyGenLoop autoT ksg s m (k :: rest) acc =
            autoKeyGenLoop autoT ksg s m rest
              (mInsert k (ksg (autoT s kinv) s ek0) acc) := by
          simp only [autoKeyGenLoop, liftO, bind, Except.bind, hinv, hf]
        rw [hstep]
        exact ih _

theorem autoKeyGenLoop_isOk (autoT : Element → Nat → Element)
    (ksg : Element → Element → EvalKeyE → EvalKeyE) (s : Element)
    (m : List (Nat × EvalKeyE)) (l : List Nat) :
    ∀ acc, (∀ k ∈ l, (modInverse k (2 * s.params.N)).isSome = true ∧
        (mapFind k m).isSome = true) →
      ∃ r, autoKeyGenLoop autoT ksg s m l acc = Except.ok r := by
  induction l with
  | nil => intro acc _; exact ⟨acc, rfl⟩
  | cons k rest ih =>
    intro acc h
    obtain ⟨hi, hf⟩ := h k (List.mem_cons_self k rest)
    obtain ⟨kinv, hkinv⟩ := Option.isSome_iff_exists.mp hi
    obtain ⟨ek0, hek0⟩ := Option.isSome_iff_exists.mp hf
    have hstep : autoKeyGenLoop autoT ksg s m (k :: rest) acc =
        autoKeyGenLoop autoT ksg s m rest
          (mInsert k (ksg (autoT s kinv) s ek0) acc) := by
      simp only [autoKeyGenLoop, liftO, bind, Except.bind, hkinv, hek0]
    rw [hstep]
    exact ih _ (fun k2 hm => h k2 (List.mem_cons_of_mem _ hm))

theorem autoKeyGenLoop_char (autoT : Element → Nat → Element)
    (ksg : Element → Element → EvalKeyE → EvalKeyE) (s : Element)
    (m : List (Nat × EvalKeyE)) (l : List Nat) :
    ∀ acc, (∀ k ∈ l, (modInverse k (2 * s.params.N)).isSome = true) →
    (∀ k ∈ l, (mapFind k m).isSome = true) →
    l.Nodup →
    (∀ k ∈ l, mapFind k acc = none) →
    ∃ r, autoKeyGenLoop autoT ksg s m l acc = Except.ok r ∧
      r.length = acc.length + l.length ∧
      (∀ k ∈ l, (mapFind k r).isSome = true) ∧
      (∀ k, k ∉ l → mapFind k r = mapFind k acc) := by
  induction l with
  | nil =>
    intro acc _ _ _ _
    exact ⟨acc, rfl, by simp, by simp, fun k _ => rfl⟩
  | cons k0 rest ih =>
    intro acc hinv hf hnd hdisj
    obtain ⟨kinv, hkinv⟩ :=
      Option.isSome_iff_exists.mp (hinv k0 (List.mem_cons_self k0 rest))
    obtain ⟨ek0, hek0⟩ :=
      Option.isSome_iff_exists.mp (hf k0 (List.mem_cons_self k0 rest))
    have hk0rest : k0 ∉ rest := (List.nodup_cons.mp hnd).1
    have hstep : autoKeyGenLoop autoT ksg s m (k0 :: rest) acc =
        autoKeyGenLoop autoT ksg s m rest
          (mInsert k0 (ksg (autoT s kinv) s ek0) acc) := by
      simp only [autoKeyGenLoop, liftO, bind, Except.bind, hkinv, hek0]
    have hdisj2 : ∀ k ∈ rest, mapFind k (mInsert k0 (ksg (autoT s kinv) s ek0) acc) = none := by
      intro k hm
      have hne : k ≠ k0 := fun he => hk0rest (he ▸ hm)
      rw [mapFind_mInsert_ne k k0 _ acc hne]
      exact hdisj k (List.mem_cons_of_mem _ hm)
    obtain ⟨r, hr, hlen, hsome, hpres⟩ := ih (mInsert k0 (ksg (autoT s kinv) s ek0) acc)
      (fun k2 hm => hinv k2 (List.mem_cons_of_mem _ hm))
      (fun k2 hm => hf k2 (List.mem_cons_of_mem _ hm))
      (List.nodup_cons.mp hnd).2 hdisj2
    refine ⟨r, by rw [hstep]; exact hr, ?_, ?_, ?_⟩
    · rw [hlen, length_mInsert_of_none k0 _ acc (hdisj k0 (List.mem_cons_self k0 rest))]
      simp [List.length_cons]
      omega
    · intro k hm
      rcases List.mem_cons.mp hm with hh | hh
      · subst hh
        rw [hpres k hk0rest, mapFind_mInsert_self]
        rfl
      · exact hsome k hh
    · intro k hk
      have hkne : k ≠ k0 := fun he => hk (he ▸ List.mem_cons_self k0 rest)
      have hkrest : k ∉ rest := fun hm => hk (List.mem_cons_of_mem _ hm)
      rw [hpres k hkrest, mapFind_mInsert_ne k k0 _ acc hkne]

theorem autoKeyGenLoop_missing (autoT : Element → Nat → Element)
    (ksg : Element → Element → EvalKeyE → EvalKeyE) (s : Element)
    (m : List (Nat × EvalKeyE)) (l : List Nat) :
    ∀ acc, (∀ k ∈ l, (modInverse k (2 * s.params.N)).isSome = true) →
    (∃ k, k ∈ l ∧ mapFind k m = none) →
    autoKeyGenLoop autoT ksg s m l acc = Except.error Err.MissingKey := by
  induction l with
  | nil =>
    intro acc _ hbad
    rcases hbad with ⟨k, hk, _⟩
    exact absurd hk (by simp)
  | cons k0 rest ih =>
    intro acc hinv hbad
    obtain ⟨kinv, hkinv⟩ :=
      Option.isSome_iff_exists.mp (hinv k0 (List.mem_cons_self k0 rest))
    cases hf : mapFind k0 m with
    | none => simp only [autoKeyGenLoop, liftO, bind, Except.bind, hkinv, hf]
    | some ek0 =>
      have hstep : autoKeyGenLoop autoT ksg s m (k0 :: rest) acc =
          autoKeyGenLoop autoT ksg s m rest
            (mInsert k0 (ksg (autoT s kinv) s ek0) acc) := by
        simp only [autoKeyGenLoop, liftO, bind, Except.bind, hkinv, hf]
      rw [hstep]
      apply ih _ (fun k2 hm => hinv k2 (List.mem_cons_of_mem _ hm))
      rcases hbad with ⟨k, hk, hknone⟩
      rcases List.mem_cons.mp hk with hh | hh
      · subst hh
        rw [hknone] at hf
        cases hf
      · exact ⟨k, hh, hknone⟩

/-- Claim C6: MultiEvalAutomorphismKeyGen fails with DimensionOverflow
exactly when the index list is longer than N - 1 (N the ring dimension of
the secret): in particular a well-formed call with a list of length at most
N - 1 succeeds, and any list of length N fails with DimensionOverflow. -/
theorem claim_C6 (autoT : Element → Nat → Element)
    (ksg : Element → Element → EvalKeyE → EvalKeyE) (sk : Element)
    (evalKeyMap : List (Nat × EvalKeyE)) (indexList : List Nat)
    (hN : 0 < sk.params.N) :
    (MultiEvalAutomorphismKeyGen autoT ksg sk evalKeyMap indexList =
        Except.error Err.DimensionOverflow ↔
      indexList.length > sk.params.N - 1) ∧
    (indexList.length ≤ sk.params.N - 1 →
      (∀ k ∈ indexList, (modInverse k (2 * sk.params.N)).isSome = true ∧
        (mapFind k evalKeyMap).isSome = true) →
      ∃ r, MultiEvalAutomorphismKeyGen autoT ksg sk evalKeyMap indexList =
        Except.ok r) := by
  constructor
  · constructor
    · intro h
      by_contra hlt
      simp only [MultiEvalAutomorphismKeyGen] at h
      rw [if_neg hlt] at h
      rcases autoKeyGenLoop_cases autoT ksg sk evalKeyMap indexList [] with
        ⟨r, hr⟩ | he | he
      · rw [hr] at h; cases h
      · rw [he] at h; injection h with hx; cases hx
      · rw [he] at h; injection h with hx; cases hx
    · intro h
      simp only [MultiEvalAutomorphismKeyGen]
      rw [if_pos h]
  · intro h1 h2
    simp only [MultiEvalAutomorphismKeyGen]
    rw [if_neg (not_lt.mpr h1)]
    exact autoKeyGenLoop_isOk autoT ksg sk evalKeyMap indexList [] h2

/-- Witness for claim C6 at a concrete input: ring dimension N = 3, an
index list of length N - 1 = 2 of odd indices invertible mod 2N = 6, and a
prior map containing both indices. -/
theorem claim_C6_witness :
    0 < (⟨⟨3, 6, 7⟩, Format.EVALUATION, [0, 0, 0]⟩ : Element).params.N ∧
    ((MultiEvalAutomorphismKeyGen (fun s _ => s) (fun _ _ ek => ek)
        ⟨⟨3, 6, 7⟩, Format.EVALUATION, [0, 0, 0]⟩
        [(1, (⟨[], []⟩ : EvalKeyE)), (5, ⟨[], []⟩)] [1, 5] =
          Except.error Err.DimensionOverflow ↔
        ([1, 5] : List Nat).length >
          (⟨⟨3, 6, 7⟩, Format.EVALUATION, [0, 0, 0]⟩ : Element).params.N - 1) ∧
      (([1, 5] : List Nat).length ≤
          (⟨⟨3, 6, 7⟩, Format.EVALUATION, [0, 0, 0]⟩ : Element).params.N - 1 →
        (∀ k ∈ ([1, 5] : List Nat),
          (modInverse k (2 * (⟨⟨3, 6, 7⟩, Format.EVALUATION, [0, 0, 0]⟩ :
            Element).params.N)).isSome = true ∧
          (mapFind k [(1, (⟨[], []⟩ : EvalKeyE)), (5, ⟨[], []⟩)]).isSome = true) →
        ∃ r, MultiEvalAutomorphismKeyGen (fun s _ => s) (fun _ _ ek => ek)
          ⟨⟨3, 6, 7⟩, Format.EVALUATION, [0, 0, 0]⟩
          [(1, (⟨[], []⟩ : EvalKeyE)), (5, ⟨[], []⟩)] [1, 5] = Except.ok r)) :=
  ⟨by decide,
   claim_C6 (fun s _ => s) (fun _ _ ek => ek)
     ⟨⟨3, 6, 7⟩, Format.EVALUATION, [0, 0, 0]⟩
     [(1, (⟨[], []⟩ : EvalKeyE)), (5, ⟨[], []⟩)] [1, 5] (by decide)⟩

/-- Counterexample to claim C10 as stated: with ring dimension N = 2, the
index list [1, 3] has every index present in the prior map, yet the call
fails with DimensionOverflow (the list is longer than N - 1 = 1), so the
membership precondition alone does not make the function return a map. -/
theorem claim_C10_counterexample :
    MultiEvalAutomorphismKeyGen (fun s _ => s) (fun _ _ ek => ek)
      ⟨⟨2, 4, 5⟩, Format.EVALUATION, [0, 0]⟩
      [(1, (⟨[], []⟩ : EvalKeyE)), (3, ⟨[], []⟩)] [1, 3] =
      Except.error Err.DimensionOverflow := rfl

/-- Claim C10 amended: under the additional preconditions that the index
list is no longer than N - 1 and that every listed index is invertible
mod 2N, the unguarded prior-map lookups of MultiEvalAutomorphismKeyGen all
succeed when every listed index is a key of the prior map, and the returned
map then contains exactly one entry per listed index (for a duplicate-free
list); when some listed index is missing from the prior map, the failure
branch of the lookup is reached instead. -/
theorem claim_C10_amended (autoT : Element → Nat → Element)
    (ksg : Element → Element → EvalKeyE → EvalKeyE) (sk : Element)
    (evalKeyMap : List (Nat × EvalKeyE)) (indexList : List Nat)
    (hLen : indexList.length ≤ sk.params.N - 1)
    (hInv : ∀ k ∈ indexList, (modInverse k (2 * sk.params.N)).isSome = true)
    (hND : indexList.Nodup) :
    ((∀ k ∈ indexList, (mapFind k evalKeyMap).isSome = true) →
      ∃ r, MultiEvalAutomorphismKeyGen autoT ksg sk evalKeyMap indexList =
          Except.ok r ∧
        r.length = indexList.length ∧
        (∀ k ∈ indexList, (mapFind k r).isSome = true) ∧
        (∀ k, k ∉ indexList → mapFind k r = none)) ∧
    ((∃ k, k ∈ indexList ∧ mapFind k evalKeyMap = none) →
      MultiEvalAutomorphismKeyGen autoT ksg sk evalKeyMap indexList =
        Except.error Err.MissingKey) := by
  constructor
  · intro hfind
    obtain ⟨r, hr, hlen, hsome, hpres⟩ :=
      autoKeyGenLoop_char autoT ksg sk evalKeyMap indexList [] hInv hfind hND
        (fun k _ => rfl)
    refine ⟨r, ?_, by simpa using hlen, hsome, fun k hk => hpres k hk⟩
    simp only [MultiEvalAutomorphismKeyGen]
    rw [if_neg (not_lt.mpr hLen)]
    exact hr
  · intro hbad
    simp only [MultiEvalAutomorphismKeyGen]
    rw [if_neg (not_lt.mpr hLen)]
    exact autoKeyGenLoop_missing autoT ksg sk evalKeyMap indexList [] hInv hbad

/-- Witness for the amended claim C10 at a concrete input: ring dimension
N = 3, index list [1, 5] (invertible mod 6, duplicate-free), prior map
containing both indices. -/
theorem claim_C10_amended_witness :
    (([1, 5] : List Nat).length ≤
        (⟨⟨3, 6, 7⟩, Format.EVALUATION, [0, 0, 0]⟩ : Element).params.N - 1 ∧
     (∀ k ∈ ([1, 5] : List Nat),
        (modInverse k (2 * (⟨⟨3, 6, 7⟩, Format.EVALUATION, [0, 0, 0]⟩ :
          Element).params.N)).isSome = true) ∧
     ([1, 5] : List Nat).Nodup) ∧
    (((∀ k ∈ ([1, 5] : List Nat),
        (mapFind k [(1, (⟨[], []⟩ : EvalKeyE)), (5, ⟨[], []⟩)]).isSome = true) →
      ∃ r, MultiEvalAutomorphismKeyGen (fun s _ => s) (fun _ _ ek => ek)
          ⟨⟨3, 6, 7⟩, Format.EVALUATION, [0, 0, 0]⟩
          [(1, (⟨[], []⟩ : EvalKeyE)), (5, ⟨[], []⟩)] [1, 5] = Except.ok r ∧
        r.length = ([1, 5] : List Nat).length ∧
        (∀ k ∈ ([1, 5] : List Nat), (mapFind k r).isSome = true) ∧
        (∀ k, k ∉ ([1, 5] : List Nat) → mapFind k r = none)) ∧
     ((∃ k, k ∈ ([1, 5] : List Nat) ∧
        mapFind k [(1, (⟨[], []⟩ : EvalKeyE)), (5, ⟨[], []⟩)] = none) →
      MultiEvalAutomorphismKeyGen (fun s _ => s) (fun _ _ ek => ek)
        ⟨⟨3, 6, 7⟩, Format.EVALUATION, [0, 0, 0]⟩
        [(1, (⟨[], []⟩ : EvalKeyE)), (5, ⟨[], []⟩)] [1, 5] =
        Except.error Err.MissingKey)) :=
  ⟨⟨by decide, by decide, by decide⟩,
   claim_C10_amended (fun s _ => s) (fun _ _ ek => ek)
     ⟨⟨3, 6, 7⟩, Format.EVALUATION, [0, 0, 0]⟩
     [(1, (⟨[], []⟩ : EvalKeyE)), (5, ⟨[], []⟩)] [1, 5]
     (by decide) (by decide) (by decide)⟩

/-! ### Lemmas about the summation-key index generation -/

theorem genSumIndices_length (n : Nat) : ∀ g m, (genSumIndices n g m).length = n := by
  induction n with
  | zero => intro g m; rfl
  | succ n2 ih =>
    intro g m
    simp only [genSumIndices, List.length_cons, ih]

theorem genSumIndices_pow (m : Nat) (n : Nat) :
    ∀ j, genSumIndices n (5 ^ 2 ^ j % m) m =
      (List.range n).map (fun i => 5 ^ 2 ^ (j + i) % m) := by
  induction n with
  | zero => intro j; rfl
  | succ n2 ih =>
    intro j
    have hsq : 5 ^ 2 ^ j % m * (5 ^ 2 ^ j % m) % m = 5 ^ 2 ^ (j + 1) % m := by
      rw [← Nat.mul_mod, ← pow_add]
      have h2 : 2 ^ j + 2 ^ j = 2 ^ (j + 1) := by
        rw [pow_succ]
        omega
      rw [h2]
    rw [genSumIndices, hsq, ih (j + 1)]
    rw [List.range_succ_eq_map, List.map_cons, List.map_map]
    refine congrArg₂ List.cons rfl ?_
    apply List.map_congr_left
    intro i _
    have h : j + 1 + i = j + (i + 1) := by omega
    simp only [Function.comp]
    rw [h]

/-- Claim C8: MultiEvalSumKeyGen generates exactly ceil(log2 B) automorphism
indices (where B is the batch size), namely the sequence 5, 5^2 mod M,
5^4 mod M, ..., and delegates to MultiEvalAutomorphismKeyGen; in particular
when B = 1 the index list is empty and the returned map is empty. -/
theorem claim_C8 (autoT : Element → Nat → Element)
    (ksg : Element → Element → EvalKeyE → EvalKeyE) (cp : CryptoParams)
    (sk : Element) (evalKeyMap : List (Nat × EvalKeyE))
    (h5 : 5 < cp.elementParams.M) :
    (sumKeyIndices cp.batchSize cp.elementParams.M).length =
      Nat.clog 2 cp.batchSize ∧
    sumKeyIndices cp.batchSize cp.elementParams.M =
      (List.range (Nat.clog 2 cp.batchSize)).map
        (fun j => 5 ^ 2 ^ j % cp.elementParams.M) ∧
    MultiEvalSumKeyGen autoT ksg cp sk evalKeyMap =
      MultiEvalAutomorphismKeyGen autoT ksg sk evalKeyMap
        (sumKeyIndices cp.batchSize cp.elementParams.M) ∧
    (cp.batchSize = 1 →
      sumKeyIndices cp.batchSize cp.elementParams.M = [] ∧
      MultiEvalSumKeyGen autoT ksg cp sk evalKeyMap = Except.ok []) := by
  have hseq : sumKeyIndices cp.batchSize cp.elementParams.M =
      (List.range (Nat.clog 2 cp.batchSize)).map
        (fun j => 5 ^ 2 ^ j % cp.elementParams.M) := by
    rw [sumKeyIndices]
    have h50 : (5 : Nat) = 5 ^ 2 ^ 0 % cp.elementParams.M := by
      rw [pow_zero, pow_one, Nat.mod_eq_of_lt h5]
    conv_lhs => rw [h50]
    rw [genSumIndices_pow cp.elementParams.M (Nat.clog 2 cp.batchSize) 0]
    apply List.map_congr_left
    intro i _
    rw [Nat.zero_add]
  have hempty : cp.batchSize = 1 →
      sumKeyIndices cp.batchSize cp.elementParams.M = [] := by
    intro hb
    rw [sumKeyIndices, hb, Nat.clog_one_right]
    rfl
  refine ⟨?_, hseq, rfl, fun hb => ⟨hempty hb, ?_⟩⟩
  · rw [sumKeyIndices, genSumIndices_length]
  · simp only [MultiEvalSumKeyGen]
    rw [hempty hb]
    simp only [MultiEvalAutomorphismKeyGen, List.length_nil]
    rw [if_neg (Nat.not_lt_zero _)]
    rfl

/-- Witness for claim C8 at a concrete input: batch size 1 and cyclotomic
order M = 16, exercising the empty-map boundary case. -/
theorem claim_C8_witness :
    5 < (⟨⟨4, 16, 7⟩, 1, Mode.OPTIMIZED, 1⟩ : CryptoParams).elementParams.M ∧
    ((sumKeyIndices 1 16).length = Nat.clog 2 1 ∧
     sumKeyIndices 1 16 = (List.range (Nat.clog 2 1)).map (fun j => 5 ^ 2 ^ j % 16) ∧
     MultiEvalSumKeyGen (fun s _ => s) (fun _ _ ek => ek)
        ⟨⟨4, 16, 7⟩, 1, Mode.OPTIMIZED, 1⟩
        ⟨⟨4, 16, 7⟩, Format.EVALUATION, [0, 0, 0, 0]⟩ [] =
      MultiEvalAutomorphismKeyGen (fun s _ => s) (fun _ _ ek => ek)
        ⟨⟨4, 16, 7⟩, Format.EVALUATION, [0, 0, 0, 0]⟩ [] (sumKeyIndices 1 16) ∧
     ((⟨⟨4, 16, 7⟩, 1, Mode.OPTIMIZED, 1⟩ : CryptoParams).batchSize = 1 →
       sumKeyIndices 1 16 = [] ∧
       MultiEvalSumKeyGen (fun s _ => s) (fun _ _ ek => ek)
         ⟨⟨4, 16, 7⟩, 1, Mode.OPTIMIZED, 1⟩
         ⟨⟨4, 16, 7⟩, Format.EVALUATION, [0, 0, 0, 0]⟩ [] = Except.ok [])) :=
  ⟨by decide,
   claim_C8 (fun s _ => s) (fun _ _ ek => ek) ⟨⟨4, 16, 7⟩, 1, Mode.OPTIMIZED, 1⟩
     ⟨⟨4, 16, 7⟩, Format.EVALUATION, [0, 0, 0, 0]⟩ [] (by decide)⟩

end Lbcrypto
